import Mathlib

/-!
# BLE monitor (net/nimble/host/src/ble_monitor.c)

A shallow embedding of the packet framing and transport layer of the NimBLE
host monitor: the header encoder, the UART ring buffer, the buffered RTT
reassembly buffer and the public send entry points.

Conventions of the embedding.

* A byte is a value of `Fin 256`; memory arrays are lists of bytes.
* `uint16_t` and `uint32_t` values are natural numbers, reduced `% 2 ^ 16`
  and `% 2 ^ 32` at every place where the C code converts to that type.
* `int` and `int64_t` values are integers.  `size_t` values are lengths of
  objects in memory and are natural numbers.
* The host is little-endian (the RTT and UART targets are), so `htole16`
  and `htole32` are the identity on values and a header field read back
  from memory is the little-endian value of its bytes.
* A function that mutates globals takes the old state and returns the new.
* The transport is chosen at compile time in the C file; here the send
  entry points take the selected `monitor_write` as an argument.
-/

namespace BleMonitor

/-! ## Bytes and little-endian layout -/

/-- A byte of memory, the C type uint8_t. -/
abbrev Byte := Fin 256

/-- Conversion of an unsigned value to uint8_t. -/
def u8 (n : Nat) : Byte := ⟨n % 256, Nat.mod_lt _ (by decide)⟩

/-- Conversion of a signed int to a byte (as in the store of an int to a char). -/
def u8OfInt (c : Int) : Byte := ⟨(c % 256).toNat, by omega⟩

/-- Memory image of a 16-bit value on a little-endian host. -/
def le16 (v : Nat) : List Byte := [u8 v, u8 (v / 256)]

/-- Memory image of a 32-bit value on a little-endian host. -/
def le32 (v : Nat) : List Byte :=
  [u8 v, u8 (v / 256), u8 (v / 65536), u8 (v / 16777216)]

/-- Value of the 16-bit little-endian field stored at offset off of a buffer. -/
def rd16 (buf : List Byte) (off : Nat) : Nat :=
  (buf.getD off 0).val + 256 * (buf.getD (off + 1) 0).val

/-- Value of the 32-bit little-endian field stored at offset off of a buffer. -/
def rd32 (buf : List Byte) (off : Nat) : Nat :=
  (buf.getD off 0).val + 256 * (buf.getD (off + 1) 0).val
    + 65536 * (buf.getD (off + 2) 0).val + 16777216 * (buf.getD (off + 3) 0).val

/-- The C library memcpy of src into dst at offset pos. -/
def memcpy (dst : List Byte) (pos : Nat) (src : List Byte) : List Byte :=
  dst.take pos ++ src ++ dst.drop (pos + src.length)

/-! ## Declarations of ble_monitor_priv.h -/

/-- Modelled from the spec: the constants of ble_monitor_priv.h, which is not
among the source files.  The spec names them (the 32-bit timestamp tag, the
three opcodes, the fixed width of the name field of the new-index record) but
gives no values, so they are parameters of the development. -/
structure Priv where
  BLE_MONITOR_EXTHDR_TS32 : Nat
  BLE_MONITOR_OPCODE_NEW_INDEX : Nat
  BLE_MONITOR_OPCODE_USER_LOGGING : Nat
  BLE_MONITOR_OPCODE_SYSTEM_NOTE : Nat
  sizeof_name : Nat

/-- Modelled from the spec: width in bytes of the field type of struct
ble_monitor_hdr (wire format table: ext type, 1B). -/
def sizeof_type : Nat := 1

/-- Modelled from the spec: width in bytes of the field ts32 of struct
ble_monitor_hdr (wire format table: ts32, 4B). -/
def sizeof_ts32 : Nat := 4

/-- Modelled from the spec: width in bytes of the field data_len of struct
ble_monitor_hdr (wire format table: data_len, 2B). -/
def sizeof_data_len : Nat := 2

/-- Modelled from the spec: struct ble_monitor_hdr of ble_monitor_priv.h, with
the fields of the wire format table in wire order.  Each field holds the value
whose little-endian image is in memory. -/
structure ble_monitor_hdr where
  data_len : Nat
  opcode : Nat
  flags : Nat
  hdr_len : Nat
  type : Nat
  ts32 : Nat
deriving DecidableEq, Repr

/-- Modelled from the spec: the memory image of a struct ble_monitor_hdr, the
packed fields of the wire format table (2 + 2 + 1 + 1 + 1 + 4 bytes). -/
def ble_monitor_hdr.bytes (h : ble_monitor_hdr) : List Byte :=
  le16 h.data_len ++ le16 h.opcode ++ [u8 h.flags, u8 h.hdr_len, u8 h.type] ++ le32 h.ts32

/-- Modelled from the spec: sizeof(struct ble_monitor_hdr), the sum of the
widths of the wire format table. -/
def sizeof_hdr : Nat := 11

/-! ## Clock -/

/-- UTC Timestamp for Jan 2016 00:00:00. -/
def UTC01_01_2016 : Int := 1451606400

/-- What the operating system reports during one call: the return code (int)
and the timeval of os_gettimeofday (tv_sec of type int64_t, tv_usec of type
int32_t), and the value of os_get_uptime_usec (int64_t). -/
structure Clock where
  rc : Int
  tv_sec : Int
  tv_usec : Int
  uptime_usec : Int
deriving DecidableEq, Repr

/-! ## Header encoder -/

/-- The result of an int64_t operation whose mathematical value is x: the
value itself when it is in the range of int64_t, and otherwise the value
wrapped in two's complement, which is what the targets compute (the C
standard leaves the overflow undefined). -/
def wrap64 (x : Int) : Int := (x + 2 ^ 63) % 2 ^ 64 - 2 ^ 63

/-- The function encode_monitor_hdr.  The parameters opcode and len are
uint16_t, so the arguments are converted on entry; the sum for data_len is
computed in int and converted to uint16_t by htole16; the wall-clock
timestamp tv_sec * 1000000 + tv_usec is computed in int64_t, the product
first and then the sum; the quotient ts / 100 is a truncating int64_t
division converted to uint32_t by htole32. -/
def encode_monitor_hdr (P : Priv) (clk : Clock) (ts : Int) (opcode len : Nat) :
    ble_monitor_hdr :=
  let opcode := opcode % 2 ^ 16
  let len := len % 2 ^ 16
  let hdr_len := (sizeof_type + sizeof_ts32) % 2 ^ 8
  let data_len := (4 + hdr_len + len) % 2 ^ 16
  let ts :=
    if ts < 0 then
      if clk.rc ≠ 0 ∨ clk.tv_sec < UTC01_01_2016 then clk.uptime_usec
      else wrap64 (wrap64 (clk.tv_sec * 1000000) + clk.tv_usec)
    else ts
  { data_len := data_len
    opcode := opcode
    flags := 0
    hdr_len := hdr_len
    type := P.BLE_MONITOR_EXTHDR_TS32 % 2 ^ 8
    ts32 := ((Int.tdiv ts 100) % 2 ^ 32).toNat }

/-! ## Ring-buffer serial transport (BLE_MONITOR_UART) -/

/-- The globals of the UART transport: tx_ringbuf[64] and its two cursors. -/
structure Uart where
  tx_ringbuf : List Byte
  tx_ringbuf_head : Nat
  tx_ringbuf_tail : Nat
deriving DecidableEq, Repr

/-- The constant sizeof(tx_ringbuf). -/
def sizeof_tx_ringbuf : Nat := 64

/-- The function inc_and_wrap, on the non-negative ints it is called with. -/
def inc_and_wrap (i max : Nat) : Nat := (i + 1) &&& (max - 1)

/-- The function monitor_uart_tx_char: the new globals and the returned int. -/
def monitor_uart_tx_char (s : Uart) : Uart × Int :=
  if s.tx_ringbuf_head = s.tx_ringbuf_tail then
    (s, -1)
  else
    let ch : Byte := s.tx_ringbuf.getD s.tx_ringbuf_tail 0
    ({ s with tx_ringbuf_tail := inc_and_wrap s.tx_ringbuf_tail sizeof_tx_ringbuf % 2 ^ 8 },
      (ch.val : Int))

/-- One pass of monitor_uart_queue_char through its critical section, which is
atomic with respect to the interrupt handler.  When the loop test finds the
buffer full the result is none: the loop body starts the transmitter, lets
interrupts in and the test is made again.  Otherwise the byte is stored at
head and head advances. -/
def monitor_uart_queue_char (s : Uart) (ch : Byte) : Option Uart :=
  if inc_and_wrap s.tx_ringbuf_head sizeof_tx_ringbuf = s.tx_ringbuf_tail then
    none
  else
    some { s with
      tx_ringbuf := s.tx_ringbuf.set s.tx_ringbuf_head ch
      tx_ringbuf_head := inc_and_wrap s.tx_ringbuf_head sizeof_tx_ringbuf % 2 ^ 8 }

/-- Who runs next: the producer (one pass of the critical section of
monitor_uart_queue_char) or the interrupt handler (one call of
monitor_uart_tx_char). -/
inductive Actor where
  | producer
  | isr
deriving DecidableEq, Repr

/-- The UART transport together with its two parties.  The field pending holds
the bytes that the loop of monitor_write (UART) has still to queue, in order;
pushed records the bytes stored so far and sent the bytes that
monitor_uart_tx_char has handed to the driver. -/
structure UartSys where
  uart : Uart
  pending : List Byte
  pushed : List Byte
  sent : List Byte
deriving DecidableEq, Repr

/-- One atomic step of the system. -/
def UartSys.step (s : UartSys) : Actor → UartSys
  | .producer =>
    match s.pending with
    | [] => s
    | ch :: rest =>
      match monitor_uart_queue_char s.uart ch with
      | none => s
      | some u => { s with uart := u, pending := rest, pushed := s.pushed ++ [ch] }
  | .isr =>
    let r := monitor_uart_tx_char s.uart
    if r.2 < 0 then { s with uart := r.1 }
    else { s with uart := r.1, sent := s.sent ++ [u8OfInt r.2] }

/-- The system after a schedule of atomic steps. -/
def UartSys.run (s : UartSys) (sched : List Actor) : UartSys :=
  sched.foldl UartSys.step s

/-- The system at start: empty ring buffer with both cursors at 0, and the
bytes the producer is going to write. -/
def UartSys.init (buf : List Byte) (input : List Byte) : UartSys :=
  { uart := { tx_ringbuf := buf, tx_ringbuf_head := 0, tx_ringbuf_tail := 0 }
    pending := input, pushed := [], sent := [] }

/-- The live bytes of the ring buffer, oldest first: the (head - tail) mod 64
bytes stored from index tail on, wrapping at the end of the array. -/
def uart_live (u : Uart) : List Byte :=
  (List.range ((u.tx_ringbuf_head + 64 - u.tx_ringbuf_tail) % 64)).map
    (fun k => u.tx_ringbuf.getD ((u.tx_ringbuf_tail + k) % 64) 0)

/-- The invariant of the UART system: the array has its 64 bytes, both cursors
are inside it, the bytes stored are the bytes sent followed by the live bytes,
and the bytes stored followed by the bytes still to queue are the input. -/
structure UartInv (input : List Byte) (s : UartSys) : Prop where
  len : s.uart.tx_ringbuf.length = 64
  head : s.uart.tx_ringbuf_head < 64
  tail : s.uart.tx_ringbuf_tail < 64
  fifo : s.pushed = s.sent ++ uart_live s.uart
  order : s.pushed ++ s.pending = input

/-! ## Trace-channel transport, buffered mode (BLE_MONITOR_RTT_BUFFERED) -/

/-- The constant sizeof(rtt_pktbuf). -/
def sizeof_rtt_pktbuf : Nat := 256

/-- The globals of the buffered RTT transport, and the list of the calls of
SEGGER_RTT_WriteNoLock made so far (the bytes passed by each call). -/
structure Rtt where
  rtt_pktbuf : List Byte
  rtt_pktbuf_pos : Nat
  channel : List (List Byte)
deriving DecidableEq, Repr

/-- The function monitor_write of the buffered RTT transport.  The field
data_len is read through the header that overlays the start of rtt_pktbuf. -/
def Rtt.monitor_write (s : Rtt) (buf : List Byte) : Rtt :=
  let len := buf.length
  let discard : Bool := decide (s.rtt_pktbuf_pos + len > sizeof_rtt_pktbuf)
  let pktbuf := if !discard then memcpy s.rtt_pktbuf s.rtt_pktbuf_pos buf else s.rtt_pktbuf
  let pos := s.rtt_pktbuf_pos + len
  if pos < sizeof_data_len + rd16 pktbuf 0 then
    { s with rtt_pktbuf := pktbuf, rtt_pktbuf_pos := pos }
  else
    { rtt_pktbuf := pktbuf
      rtt_pktbuf_pos := 0
      channel := if !discard then s.channel ++ [pktbuf.take pos] else s.channel }

/-- The buffered RTT transport at start: cursor 0, no channel write yet. -/
def Rtt.init (buf : List Byte) : Rtt :=
  { rtt_pktbuf := buf, rtt_pktbuf_pos := 0, channel := [] }

/-- The reassembly buffer in the middle of a frame that fits: the array has
its 256 bytes, the cursor is past the length field, the bytes before the cursor
are acc, and the length field read through the header gives a frame of total
bytes, at most the capacity. -/
structure RttAcc (s : Rtt) (acc : List Byte) (total : Nat) : Prop where
  hlen : s.rtt_pktbuf.length = sizeof_rtt_pktbuf
  hpos : s.rtt_pktbuf_pos = acc.length
  htwo : 2 ≤ acc.length
  hacc : s.rtt_pktbuf.take s.rtt_pktbuf_pos = acc
  htotal : sizeof_data_len + rd16 s.rtt_pktbuf 0 = total
  hfits : total ≤ sizeof_rtt_pktbuf

/-- The reassembly buffer in the middle of a frame that does not fit: the
array has its 256 bytes, the cursor is past the length field, and the length
field read through the header gives a frame of total bytes, more than the
capacity. -/
structure RttOver (s : Rtt) (total : Nat) : Prop where
  hlen : s.rtt_pktbuf.length = sizeof_rtt_pktbuf
  htwo : 2 ≤ s.rtt_pktbuf_pos
  htotal : sizeof_data_len + rd16 s.rtt_pktbuf 0 = total
  hover : sizeof_rtt_pktbuf < total

/-! ## A byte sink that records its calls -/

/-- The byte sink seen from the packet emitter: the list of the monitor_write
calls made so far, each with the bytes it was given. -/
def Sink.monitor_write (log : List (List Byte)) (buf : List Byte) : List (List Byte) :=
  log ++ [buf]

/-! ## Public send API -/

/-- The function ble_monitor_send, over the selected monitor_write.  The
buffer data holds len bytes. -/
def ble_monitor_send {σ : Type} (mw : σ → List Byte → σ) (P : Priv) (clk : Clock)
    (s : σ) (opcode : Nat) (data : List Byte) : σ × Int :=
  let hdr := encode_monitor_hdr P clk (-1) opcode data.length
  let s := mw s hdr.bytes
  let s := mw s data
  (s, 0)

/-- The first loop of ble_monitor_send_om: the uint16_t sum of the om_len of
the segments of the chain. -/
def om_length (om : List (List Byte)) : Nat :=
  om.foldl (fun length seg => (length + seg.length) % 2 ^ 16) 0

/-- The function ble_monitor_send_om, over the selected monitor_write.  A chain
of mbufs is the list of the data of its segments. -/
def ble_monitor_send_om {σ : Type} (mw : σ → List Byte → σ) (P : Priv) (clk : Clock)
    (s : σ) (opcode : Nat) (om : List (List Byte)) : σ × Int :=
  let length := om_length om
  let hdr := encode_monitor_hdr P clk (-1) opcode length
  let s := mw s hdr.bytes
  let s := om.foldl (fun s seg => mw s seg) s
  (s, 0)

/-- The C library strncpy: the n bytes written to the destination, the
characters of src up to its first null byte, cut at n, then null padding. -/
def strncpy (src : List Byte) (n : Nat) : List Byte :=
  let str := (src.takeWhile (fun b => b ≠ 0)).take n
  str ++ List.replicate (n - str.length) 0

/-- Modelled from the spec: the memory image of struct ble_monitor_new_index
of ble_monitor_priv.h, the packed record of 1-byte type, 1-byte bus id,
6-byte address and fixed-width name. -/
def new_index_bytes (type bus : Byte) (bdaddr : List Byte) (name : List Byte) : List Byte :=
  [type, bus] ++ bdaddr ++ name

/-- The function ble_monitor_new_index.  The argument name is the memory at
the pointer, read up to its first null byte. -/
def ble_monitor_new_index {σ : Type} (mw : σ → List Byte → σ) (P : Priv) (clk : Clock)
    (s : σ) (bus : Byte) (addr : Fin 6 → Byte) (name : List Byte) : σ × Int :=
  let pkt_name := strncpy name (P.sizeof_name - 1) ++ [0]
  let pkt := new_index_bytes 0 bus (List.ofFn addr) pkt_name
  let r := ble_monitor_send mw P clk s P.BLE_MONITOR_OPCODE_NEW_INDEX pkt
  (r.1, 0)

/-- The statics of ble_monitor_out: the line buffer buf[128] and len. -/
structure OutAcc where
  buf : List Byte
  len : Nat
deriving DecidableEq, Repr

/-- The constant sizeof(buf) of ble_monitor_out. -/
def sizeof_buf : Nat := 128

/-- The function ble_monitor_out, over the selected monitor_write: the new
statics, the new sink state and the returned int. -/
def ble_monitor_out {σ : Type} (mw : σ → List Byte → σ) (P : Priv) (clk : Clock)
    (st : OutAcc × σ) (c : Int) : (OutAcc × σ) × Int :=
  if c ≠ 10 ∧ st.1.len < sizeof_buf - 1 then
    (({ buf := st.1.buf.set st.1.len (u8OfInt c), len := st.1.len + 1 }, st.2), c)
  else
    let buf := st.1.buf.set st.1.len 0
    let len := st.1.len + 1
    let r := ble_monitor_send mw P clk st.2 P.BLE_MONITOR_OPCODE_SYSTEM_NOTE (buf.take len)
    (({ buf := buf, len := 0 }, r.1), c)

/-- A sequence of calls of ble_monitor_out, each with the clock it would see:
the final state and the list of the returned values. -/
def ble_monitor_out_calls {σ : Type} (mw : σ → List Byte → σ) (P : Priv)
    (st : OutAcc × σ) : List (Clock × Int) → (OutAcc × σ) × List Int
  | [] => (st, [])
  | (clk, c) :: rest =>
    let r := ble_monitor_out mw P clk st c
    let r2 := ble_monitor_out_calls mw P r.1 rest
    (r2.1, r.2 :: r2.2)

/-! ## Formatted log lines -/

/-- Modelled from the spec: the severity constants of log/log.h, which is not
among the source files.  The spec names the four levels but gives no values,
so they are parameters of the development. -/
structure LogLevels where
  LOG_LEVEL_ERROR : Int
  LOG_LEVEL_WARN : Int
  LOG_LEVEL_INFO : Int
  LOG_LEVEL_DEBUG : Int
deriving DecidableEq, Repr

/-- The switch of ble_monitor_log: the value stored in ulog.priority.  The
case labels of a C switch are pairwise distinct; the cases are tested here in
the order of the source. -/
def ulog_priority (L : LogLevels) (level : Int) : Nat :=
  if level = L.LOG_LEVEL_ERROR then 3
  else if level = L.LOG_LEVEL_WARN then 4
  else if level = L.LOG_LEVEL_INFO then 6
  else if level = L.LOG_LEVEL_DEBUG then 7
  else 8

/-- Modelled from the spec: sizeof(struct ble_monitor_user_logging) of
ble_monitor_priv.h, the packed record of 1-byte priority and 1-byte identifier
length. -/
def sizeof_ulog : Nat := 2

/-- The array id of ble_monitor_log, the string nimble with its terminator. -/
def log_id : List Byte := [110, 105, 109, 98, 108, 101, 0]

/-- The constant sizeof(id) of ble_monitor_log. -/
def sizeof_id : Nat := 7

/-- The function btmon_write, the write method of the file object btmon: the
new sink state and the returned count. -/
def btmon_write {σ : Type} (mw : σ → List Byte → σ) (s : σ) (bp : List Byte) : σ × Nat :=
  (mw s bp, bp.length)

/-- The function ble_monitor_log, over the selected monitor_write.  The
formatter of the C library is outside the file: the argument out is the
sequence of the buffers that vfprintf hands to the write method of btmon for
this format and these arguments, and vsprintf with a null destination returns
the number of characters of the same formatted message. -/
def ble_monitor_log {σ : Type} (mw : σ → List Byte → σ) (P : Priv) (L : LogLevels)
    (clk : Clock) (s : σ) (level : Int) (out : List (List Byte)) : σ × Int :=
  let len := out.flatten.length
  let priority := ulog_priority L level
  let ident_len := sizeof_id
  let hdr := encode_monitor_hdr P clk (-1) P.BLE_MONITOR_OPCODE_USER_LOGGING
    (sizeof_ulog + sizeof_id + len + 1)
  let s := mw s hdr.bytes
  let s := mw s [u8 priority, u8 ident_len]
  let s := mw s log_id
  let s := out.foldl (fun s bp => (btmon_write mw s bp).1) s
  let s := mw s [0]
  (s, 0)

/-- The payloads of the packets in the record of a sink that has received
header and payload calls in turn: every second call. -/
def sink_payloads : List (List Byte) → List (List Byte)
  | _ :: p :: rest => p :: sink_payloads rest
  | _ => []

/-! ## Concurrent call contexts -/

/-- The monitor_write calls that ble_monitor_send_om makes between
os_mutex_pend and os_mutex_release: the header, then each segment of the
chain.  The header is encoded before the lock is taken. -/
def send_om_calls (P : Priv) (clk : Clock) (opcode : Nat) (om : List (List Byte)) :
    List (List Byte) :=
  (encode_monitor_hdr P clk (-1) opcode (om_length om)).bytes :: om

/-- Where a call context stands in ble_monitor_send_om: in front of
os_mutex_pend, between os_mutex_pend and os_mutex_release with the
monitor_write calls it has still to make, or after os_mutex_release. -/
inductive Pc where
  | pending
  | holding (rest : List (List Byte))
  | returned
deriving DecidableEq, Repr

/-- Modelled from the spec: os_mutex_pend with OS_TIMEOUT_NEVER on the lock of
the file, the Exclusive Emission Token; the code of os_mutex (the kernel) is
not among the source files.  The token is a single mutual-exclusion object
that at most one call context holds at a time: context i takes it when no
context holds it, and otherwise waits.  The result is the holder after the
attempt and whether the call has returned. -/
def os_mutex_pend (lock : Option Nat) (i : Nat) : Option Nat × Bool :=
  match lock with
  | none => (some i, true)
  | some h => (some h, false)

/-- Modelled from the spec: os_mutex_release on the lock of the file, called
by the context that holds the token: afterwards no context holds it. -/
def os_mutex_release (_lock : Option Nat) : Option Nat := none

/-- The packet emitter with its call contexts: lock is the holder of the
token, pc the position of each call context, sink the record of the
monitor_write calls, and order the order in which the contexts took the
lock. -/
structure Emitter where
  lock : Option Nat
  pc : Nat → Pc
  sink : List (List Byte)
  order : List Nat

/-- One step of call context i, one of n, where calls gives for each context
the monitor_write calls of its packet: the attempt of os_mutex_pend (a context
that has to wait leaves the state unchanged), the next monitor_write call, or
os_mutex_release. -/
def Emitter.step (calls : Nat → List (List Byte)) (n : Nat) (s : Emitter) (i : Nat) : Emitter :=
  if i < n then
    match s.pc i with
    | .pending =>
      if (os_mutex_pend s.lock i).2 then
        { s with lock := (os_mutex_pend s.lock i).1,
                 pc := Function.update s.pc i (.holding (calls i)),
                 order := s.order ++ [i] }
      else s
    | .holding (c :: rest) =>
      { s with sink := Sink.monitor_write s.sink c, pc := Function.update s.pc i (.holding rest) }
    | .holding [] =>
      { s with lock := os_mutex_release s.lock, pc := Function.update s.pc i .returned }
    | .returned => s
  else s

/-- The start: the lock is free, every context is in front of os_mutex_pend
and the sink has received nothing. -/
def Emitter.init : Emitter :=
  { lock := none, pc := fun _ => .pending, sink := [], order := [] }

/-- The system after a schedule, the list of the contexts that run in turn. -/
def Emitter.run (calls : Nat → List (List Byte)) (n : Nat) (sched : List Nat) : Emitter :=
  sched.foldl (Emitter.step calls n) Emitter.init

/-- The invariant of the emitter: the contexts that took the lock are distinct
and among the n contexts, the others are still in front of os_mutex_pend; when
the lock is free the contexts that took it have returned and the sink holds
their packets in that order; when context h holds the lock it was the last to
take it, the earlier ones have returned, and the sink holds their packets
followed by the calls that h has made so far. -/
structure EmitterInv (calls : Nat → List (List Byte)) (n : Nat) (s : Emitter) : Prop where
  nodup : s.order.Nodup
  bound : ∀ i ∈ s.order, i < n
  fresh : ∀ i, i ∉ s.order → s.pc i = .pending
  free : s.lock = none →
    (∀ i ∈ s.order, s.pc i = .returned) ∧ s.sink = (s.order.map calls).flatten
  held : ∀ h, s.lock = some h →
    ∃ (o : List Nat) (written rest : List (List Byte)),
      s.order = o ++ [h] ∧ (∀ i ∈ o, s.pc i = .returned) ∧ s.pc h = .holding rest ∧
      calls h = written ++ rest ∧ s.sink = (o.map calls).flatten ++ written

/-! ## Little-endian round trips -/

theorem u8_val (n : Nat) : (u8 n).val = n % 256 := rfl

theorem rd16_le16_append (v : Nat) (hv : v < 2 ^ 16) (rest : List Byte) :
    rd16 (le16 v ++ rest) 0 = v := by
  simp [rd16, le16, u8_val]
  omega

theorem rd32_append_le32 (pre : List Byte) (v : Nat) (hv : v < 2 ^ 32) :
    rd32 (pre ++ le32 v) pre.length = v := by
  simp only [rd32]
  rw [List.getD_append_right _ _ _ _ (by omega), List.getD_append_right _ _ _ _ (by omega),
    List.getD_append_right _ _ _ _ (by omega), List.getD_append_right _ _ _ _ (by omega)]
  have e1 : pre.length + 1 - pre.length = 1 := by omega
  have e2 : pre.length + 2 - pre.length = 2 := by omega
  have e3 : pre.length + 3 - pre.length = 3 := by omega
  simp only [Nat.sub_self, e1, e2, e3]
  simp [le32, u8_val]
  omega

theorem hdr_bytes_length (h : ble_monitor_hdr) : h.bytes.length = sizeof_hdr := by
  simp [ble_monitor_hdr.bytes, le16, le32, sizeof_hdr]

/-! ## Header encoder -/

/-- C1: for every opcode and every payload length len with
4 + hdr_len + len < 2^16, encode_monitor_hdr sets hdr_len to the size of the
type tag plus the size of ts32, sets flags to 0, stores the opcode unchanged
and sets data_len to exactly 4 + hdr_len + len, stored little-endian in the
first two bytes of the header. -/
theorem encode_monitor_hdr_fields (P : Priv) (clk : Clock) (ts : Int) (opcode len : Nat)
    (hop : opcode < 2 ^ 16) (hlen : 4 + (sizeof_type + sizeof_ts32) + len < 2 ^ 16) :
    (encode_monitor_hdr P clk ts opcode len).hdr_len = sizeof_type + sizeof_ts32 ∧
    (encode_monitor_hdr P clk ts opcode len).flags = 0 ∧
    (encode_monitor_hdr P clk ts opcode len).opcode = opcode ∧
    (encode_monitor_hdr P clk ts opcode len).data_len
      = 4 + (encode_monitor_hdr P clk ts opcode len).hdr_len + len ∧
    (encode_monitor_hdr P clk ts opcode len).bytes.take 2
      = [u8 ((4 + (sizeof_type + sizeof_ts32) + len) % 256),
         u8 ((4 + (sizeof_type + sizeof_ts32) + len) / 256)] ∧
    rd16 (encode_monitor_hdr P clk ts opcode len).bytes 0
      = 4 + (sizeof_type + sizeof_ts32) + len := by
  have h1 : len % 2 ^ 16 = len := Nat.mod_eq_of_lt (by simp [sizeof_type, sizeof_ts32] at hlen; omega)
  have h2 : opcode % 2 ^ 16 = opcode := Nat.mod_eq_of_lt hop
  have h3 : (4 + (sizeof_type + sizeof_ts32) % 2 ^ 8 + len) % 2 ^ 16
      = 4 + (sizeof_type + sizeof_ts32) + len := by
    simp [sizeof_type, sizeof_ts32] at hlen ⊢
    omega
  refine ⟨by simp [encode_monitor_hdr, sizeof_type, sizeof_ts32], rfl, ?_, ?_, ?_, ?_⟩
  · simp only [encode_monitor_hdr]; exact h2
  · simp only [encode_monitor_hdr, h1]
    simp [sizeof_type, sizeof_ts32] at hlen ⊢
    omega
  · simp only [encode_monitor_hdr, ble_monitor_hdr.bytes, h1, h3, le16]
    simp [u8]
  · simp only [encode_monitor_hdr, ble_monitor_hdr.bytes, h1, h3, List.append_assoc]
    exact rd16_le16_append _ hlen _

/-- Witness of C1: opcode 10 and a payload of 3 bytes. -/
theorem encode_monitor_hdr_fields_witness :
    (encode_monitor_hdr ⟨8, 0, 13, 12, 8⟩ ⟨0, 0, 0, 0⟩ 0 10 3).hdr_len = sizeof_type + sizeof_ts32 ∧
    (encode_monitor_hdr ⟨8, 0, 13, 12, 8⟩ ⟨0, 0, 0, 0⟩ 0 10 3).flags = 0 ∧
    (encode_monitor_hdr ⟨8, 0, 13, 12, 8⟩ ⟨0, 0, 0, 0⟩ 0 10 3).opcode = 10 ∧
    (encode_monitor_hdr ⟨8, 0, 13, 12, 8⟩ ⟨0, 0, 0, 0⟩ 0 10 3).data_len
      = 4 + (encode_monitor_hdr ⟨8, 0, 13, 12, 8⟩ ⟨0, 0, 0, 0⟩ 0 10 3).hdr_len + 3 ∧
    (encode_monitor_hdr ⟨8, 0, 13, 12, 8⟩ ⟨0, 0, 0, 0⟩ 0 10 3).bytes.take 2
      = [u8 ((4 + (sizeof_type + sizeof_ts32) + 3) % 256),
         u8 ((4 + (sizeof_type + sizeof_ts32) + 3) / 256)] ∧
    rd16 (encode_monitor_hdr ⟨8, 0, 13, 12, 8⟩ ⟨0, 0, 0, 0⟩ 0 10 3).bytes 0
      = 4 + (sizeof_type + sizeof_ts32) + 3 :=
  encode_monitor_hdr_fields ⟨8, 0, 13, 12, 8⟩ ⟨0, 0, 0, 0⟩ 0 10 3 (by decide) (by decide)

/-- C2: for every explicit timestamp ts >= 0 in the range of int64_t,
encode_monitor_hdr sets ts32 to (ts / 100) mod 2^32 with integer division,
the four bytes at offset 7 of the header decode to that value, and the header
does not depend on the clock. -/
theorem encode_monitor_hdr_explicit_ts (P : Priv) (clk : Clock) (ts : Int) (opcode len : Nat)
    (h0 : 0 ≤ ts) (h63 : ts < 2 ^ 63) :
    ((encode_monitor_hdr P clk ts opcode len).ts32 : Int) = (ts / 100) % 2 ^ 32 ∧
    (encode_monitor_hdr P clk ts opcode len).ts32 = (ts.toNat / 100) % 2 ^ 32 ∧
    rd32 (encode_monitor_hdr P clk ts opcode len).bytes 7
      = (ts.toNat / 100) % 2 ^ 32 ∧
    ∀ clk2 : Clock, encode_monitor_hdr P clk2 ts opcode len
      = encode_monitor_hdr P clk ts opcode len := by
  have hnot : ¬ ts < 0 := by omega
  have hts : (encode_monitor_hdr P clk ts opcode len).ts32 = (ts.toNat / 100) % 2 ^ 32 := by
    simp only [encode_monitor_hdr, hnot, if_false]
    obtain ⟨n, rfl⟩ := Int.eq_ofNat_of_zero_le h0
    simp only [Int.toNat_ofNat]
    have : Int.tdiv (n : Int) 100 = ((n / 100 : Nat) : Int) := by
      rw [Int.tdiv_eq_ediv (by omega) (by decide)]; rfl
    rw [this]
    omega
  refine ⟨?_, hts, ?_, ?_⟩
  · rw [hts]
    omega
  · have hb : (encode_monitor_hdr P clk ts opcode len).bytes
        = (le16 (encode_monitor_hdr P clk ts opcode len).data_len
            ++ le16 (encode_monitor_hdr P clk ts opcode len).opcode
            ++ [u8 (encode_monitor_hdr P clk ts opcode len).flags,
                u8 (encode_monitor_hdr P clk ts opcode len).hdr_len,
                u8 (encode_monitor_hdr P clk ts opcode len).type])
          ++ le32 (encode_monitor_hdr P clk ts opcode len).ts32 := rfl
    rw [hb, hts]
    exact rd32_append_le32 _ _ (Nat.mod_lt _ (by decide))
  · intro clk2
    simp only [encode_monitor_hdr, hnot, if_false]

/-- Witness of C2: the timestamp 429496729700 microseconds wraps to ts32 = 1. -/
theorem encode_monitor_hdr_explicit_ts_witness :
    ((encode_monitor_hdr ⟨8, 0, 13, 12, 8⟩ ⟨0, 0, 0, 0⟩ 429496729700 10 3).ts32 : Int)
      = (429496729700 / 100) % 2 ^ 32 ∧
    (encode_monitor_hdr ⟨8, 0, 13, 12, 8⟩ ⟨0, 0, 0, 0⟩ 429496729700 10 3).ts32
      = ((429496729700 : Int).toNat / 100) % 2 ^ 32 ∧
    rd32 (encode_monitor_hdr ⟨8, 0, 13, 12, 8⟩ ⟨0, 0, 0, 0⟩ 429496729700 10 3).bytes 7
      = ((429496729700 : Int).toNat / 100) % 2 ^ 32 ∧
    ∀ clk2 : Clock, encode_monitor_hdr ⟨8, 0, 13, 12, 8⟩ clk2 429496729700 10 3
      = encode_monitor_hdr ⟨8, 0, 13, 12, 8⟩ ⟨0, 0, 0, 0⟩ 429496729700 10 3 :=
  encode_monitor_hdr_explicit_ts ⟨8, 0, 13, 12, 8⟩ ⟨0, 0, 0, 0⟩ 429496729700 10 3
    (by decide) (by decide)

/-! ## Ring buffer -/

theorem inc_and_wrap_64 (i : Nat) : inc_and_wrap i sizeof_tx_ringbuf = (i + 1) % 64 := by
  have h := Nat.and_pow_two_sub_one_eq_mod (i + 1) 6
  simpa [inc_and_wrap, sizeof_tx_ringbuf] using h

theorem live_push (buf : List Byte) (head tail : Nat) (ch : Byte) (hb : buf.length = 64)
    (hh : head < 64) (ht : tail < 64) (hfull : (head + 1) % 64 ≠ tail) :
    uart_live ⟨buf.set head ch, (head + 1) % 64, tail⟩ = uart_live ⟨buf, head, tail⟩ ++ [ch] := by
  unfold uart_live
  simp only
  have hn : (((head + 1) % 64) + 64 - tail) % 64 = (head + 64 - tail) % 64 + 1 := by omega
  rw [hn, List.range_succ, List.map_append]
  congr 1
  · apply List.map_congr_left
    intro k hk
    rw [List.mem_range] at hk
    have hne : head ≠ (tail + k) % 64 := by omega
    simp [List.getD_eq_getElem?_getD, List.getElem?_set_ne hne]
  · have he : (tail + (head + 64 - tail) % 64) % 64 = head := by omega
    simp [he, List.getD_eq_getElem?_getD, hb, hh]

theorem live_pop (buf : List Byte) (head tail : Nat)
    (hh : head < 64) (ht : tail < 64) (hne : head ≠ tail) :
    uart_live ⟨buf, head, tail⟩ = buf.getD tail 0 :: uart_live ⟨buf, head, (tail + 1) % 64⟩ := by
  unfold uart_live
  simp only
  have hn : (head + 64 - tail) % 64 = (head + 64 - (tail + 1) % 64) % 64 + 1 := by omega
  rw [hn, List.range_succ_eq_map, List.map_cons, List.map_map]
  congr 1
  · simp [Nat.mod_eq_of_lt ht]
  · apply List.map_congr_left
    intro k hk
    rw [List.mem_range] at hk
    have : (tail + (k + 1)) % 64 = ((tail + 1) % 64 + k) % 64 := by omega
    simp [this]

theorem UartInv.of_init (buf input : List Byte) (hbuf : buf.length = sizeof_tx_ringbuf) :
    UartInv input (UartSys.init buf input) :=
  ⟨hbuf, by simp [UartSys.init], by simp [UartSys.init],
    by simp [UartSys.init, uart_live], by simp [UartSys.init]⟩

theorem UartInv.step_preserved {input : List Byte} {s : UartSys} (h : UartInv input s) (a : Actor) :
    UartInv input (s.step a) := by
  obtain ⟨⟨buf, head, tail⟩, pending, pushed, sent⟩ := s
  obtain ⟨hl, hh, ht, hf, ho⟩ := h
  simp only at hl hh ht hf ho
  cases a with
  | producer =>
    cases pending with
    | nil => exact ⟨hl, hh, ht, hf, ho⟩
    | cons ch rest =>
      simp only [UartSys.step, monitor_uart_queue_char, inc_and_wrap_64]
      by_cases hfull : (head + 1) % 64 = tail
      · simp only [hfull, if_true]
        exact ⟨hl, hh, ht, hf, ho⟩
      · have hm : (head + 1) % 64 % 2 ^ 8 = (head + 1) % 64 := by omega
        simp only [hfull, if_false, hm]
        refine ⟨by simpa using hl, by simp only; omega, ht, ?_, by simpa using ho⟩
        simp only
        rw [live_push buf head tail ch hl hh ht hfull, hf, List.append_assoc]
  | isr =>
    simp only [UartSys.step, monitor_uart_tx_char, inc_and_wrap_64]
    by_cases he : head = tail
    · simp only [he, if_true]
      subst he
      exact ⟨hl, hh, hh, hf, ho⟩
    · have hm : (tail + 1) % 64 % 2 ^ 8 = (tail + 1) % 64 := by omega
      have hnn : ¬ (((buf.getD tail 0 : Byte).val : Int) < 0) := by omega
      simp only [he, if_false, hm, hnn]
      refine ⟨hl, hh, by simp only; omega, ?_, ho⟩
      simp only
      have hb : u8OfInt ((buf.getD tail 0 : Byte).val : Int) = buf.getD tail 0 := by
        apply Fin.ext
        simp only [u8OfInt]
        omega
      rw [hf, live_pop buf head tail hh ht he, List.append_assoc, hb]
      rfl

theorem UartInv.run_preserved {input : List Byte} (sched : List Actor) :
    ∀ {s : UartSys}, UartInv input s → UartInv input (s.run sched) := by
  induction sched with
  | nil => intro s h; exact h
  | cons a rest ih =>
    intro s h
    exact ih (h.step_preserved a)

theorem uart_live_length (u : Uart) :
    (uart_live u).length = (u.tx_ringbuf_head + 64 - u.tx_ringbuf_tail) % 64 := by
  simp [uart_live]

/-- C3: ring buffer FIFO.  Starting from the empty ring buffer (head = tail =
0), for every input of the producer and every interleaving of passes of
monitor_uart_queue_char (a push takes effect only when the buffer is not
full) and calls of monitor_uart_tx_char, the bytes returned by the non-empty
pops are a prefix of the bytes pushed, the bytes pushed are the bytes popped
followed by the live bytes of the buffer (none lost, none duplicated), the
pushes follow the order of the input, and once head == tail the bytes popped
are all the bytes pushed. -/
theorem uart_fifo (buf input : List Byte) (sched : List Actor)
    (hbuf : buf.length = sizeof_tx_ringbuf) :
    ((UartSys.init buf input).run sched).sent <+: ((UartSys.init buf input).run sched).pushed ∧
    ((UartSys.init buf input).run sched).pushed
      = ((UartSys.init buf input).run sched).sent
          ++ uart_live ((UartSys.init buf input).run sched).uart ∧
    ((UartSys.init buf input).run sched).pushed ++ ((UartSys.init buf input).run sched).pending
      = input ∧
    (((UartSys.init buf input).run sched).uart.tx_ringbuf_head
        = ((UartSys.init buf input).run sched).uart.tx_ringbuf_tail →
      ((UartSys.init buf input).run sched).sent = ((UartSys.init buf input).run sched).pushed) := by
  have h := UartInv.run_preserved sched (UartInv.of_init buf input hbuf)
  refine ⟨⟨_, h.fifo.symm⟩, h.fifo, h.order, ?_⟩
  intro he
  have hl := uart_live_length ((UartSys.init buf input).run sched).uart
  rw [he] at hl
  have h0 : uart_live ((UartSys.init buf input).run sched).uart = [] := by
    apply List.eq_nil_of_length_eq_zero
    rw [hl]
    have := h.tail
    omega
  rw [h.fifo, h0, List.append_nil]

/-- Witness of C3: three bytes written, two pushes, one pop, one push, two pops. -/
theorem uart_fifo_witness :
    (List.replicate 64 (0 : Byte)).length = sizeof_tx_ringbuf ∧
    ((UartSys.init (List.replicate 64 0) [7, 255, 9]).run
        [.producer, .producer, .isr, .producer, .isr, .isr]).sent = [7, 255, 9] ∧
    ((UartSys.init (List.replicate 64 0) [7, 255, 9]).run
        [.producer, .producer, .isr, .producer, .isr, .isr]).pushed = [7, 255, 9] :=
  ⟨by decide, by decide,
    ((uart_fifo (List.replicate 64 0) [7, 255, 9]
      [.producer, .producer, .isr, .producer, .isr, .isr] (by decide)).2.2.2 (by decide)).symm.trans
      (by decide)⟩

/-- C4: ring buffer capacity invariant.  After every sequence of passes of
monitor_uart_queue_char and calls of monitor_uart_tx_char starting from head =
tail = 0, both cursors are in [0, 64), the number of live bytes, which is the
number of bytes pushed and not yet popped, is (head - tail) mod 64 and at most
63, and a push never advances head to equal tail. -/
theorem uart_capacity (buf input : List Byte) (sched : List Actor)
    (hbuf : buf.length = sizeof_tx_ringbuf) :
    ((UartSys.init buf input).run sched).uart.tx_ringbuf_head < 64 ∧
    ((UartSys.init buf input).run sched).uart.tx_ringbuf_tail < 64 ∧
    ((uart_live ((UartSys.init buf input).run sched).uart).length : Int)
      = (((UartSys.init buf input).run sched).uart.tx_ringbuf_head
          - ((UartSys.init buf input).run sched).uart.tx_ringbuf_tail : Int) % 64 ∧
    ((UartSys.init buf input).run sched).pushed.length
      = ((UartSys.init buf input).run sched).sent.length
          + (uart_live ((UartSys.init buf input).run sched).uart).length ∧
    (uart_live ((UartSys.init buf input).run sched).uart).length ≤ 63 ∧
    ∀ (ch : Byte) (u : Uart),
      monitor_uart_queue_char ((UartSys.init buf input).run sched).uart ch = some u →
      u.tx_ringbuf_head ≠ u.tx_ringbuf_tail ∧ u.tx_ringbuf_head < 64 ∧
      u.tx_ringbuf_tail = ((UartSys.init buf input).run sched).uart.tx_ringbuf_tail := by
  have h := UartInv.run_preserved sched (UartInv.of_init buf input hbuf)
  have hl := uart_live_length ((UartSys.init buf input).run sched).uart
  have hh := h.head
  have ht := h.tail
  refine ⟨hh, ht, by rw [hl]; omega, ?_, by rw [hl]; omega, ?_⟩
  · have := congrArg List.length h.fifo
    simpa using this
  · intro ch u hu
    simp only [monitor_uart_queue_char, inc_and_wrap_64] at hu
    by_cases hfull : (((UartSys.init buf input).run sched).uart.tx_ringbuf_head + 1) % 64
        = ((UartSys.init buf input).run sched).uart.tx_ringbuf_tail
    · simp [hfull] at hu
    · simp only [hfull, if_false] at hu
      have hu2 := (Option.some.inj hu).symm
      subst hu2
      refine ⟨?_, ?_, rfl⟩
      · show (((UartSys.init buf input).run sched).uart.tx_ringbuf_head + 1) % 64 % 2 ^ 8
          ≠ ((UartSys.init buf input).run sched).uart.tx_ringbuf_tail
        omega
      · show (((UartSys.init buf input).run sched).uart.tx_ringbuf_head + 1) % 64 % 2 ^ 8 < 64
        omega

set_option maxRecDepth 100000 in
/-- Witness of C4: a producer with 70 bytes to write and no interrupt gets 63
of them into the buffer; the 64th push is refused and 7 bytes stay pending. -/
theorem uart_capacity_witness :
    (List.replicate 64 (0 : Byte)).length = sizeof_tx_ringbuf ∧
    ((UartSys.init (List.replicate 64 0) (List.replicate 70 1)).run
      (List.replicate 70 Actor.producer)).uart.tx_ringbuf_head < 64 ∧
    (uart_live ((UartSys.init (List.replicate 64 0) (List.replicate 70 1)).run
      (List.replicate 70 Actor.producer)).uart).length ≤ 63 ∧
    (uart_live ((UartSys.init (List.replicate 64 0) (List.replicate 70 1)).run
      (List.replicate 70 Actor.producer)).uart).length = 63 ∧
    ((UartSys.init (List.replicate 64 0) (List.replicate 70 1)).run
      (List.replicate 70 Actor.producer)).pending.length = 7 :=
  ⟨List.length_replicate _ _,
    (uart_capacity (List.replicate 64 0) (List.replicate 70 1)
      (List.replicate 70 Actor.producer) (List.length_replicate _ _)).1,
    (uart_capacity (List.replicate 64 0) (List.replicate 70 1)
      (List.replicate 70 Actor.producer) (List.length_replicate _ _)).2.2.2.2.1,
    by decide, by decide⟩

/-- C5: monitor_uart_tx_char returns -1 if and only if head == tail, and then
changes nothing; otherwise it returns the byte stored at index tail as a value
in 0..255, advances tail to (tail + 1) mod 64 and leaves head and the buffer
contents unchanged. -/
theorem monitor_uart_tx_char_spec (s : Uart) :
    ((monitor_uart_tx_char s).2 = -1 ↔ s.tx_ringbuf_head = s.tx_ringbuf_tail) ∧
    (s.tx_ringbuf_head = s.tx_ringbuf_tail → (monitor_uart_tx_char s).1 = s) ∧
    (s.tx_ringbuf_head ≠ s.tx_ringbuf_tail →
      (monitor_uart_tx_char s).2 = ((s.tx_ringbuf.getD s.tx_ringbuf_tail 0).val : Int) ∧
      0 ≤ (monitor_uart_tx_char s).2 ∧ (monitor_uart_tx_char s).2 ≤ 255 ∧
      (monitor_uart_tx_char s).1.tx_ringbuf_tail = (s.tx_ringbuf_tail + 1) % 64 ∧
      (monitor_uart_tx_char s).1.tx_ringbuf_head = s.tx_ringbuf_head ∧
      (monitor_uart_tx_char s).1.tx_ringbuf = s.tx_ringbuf) := by
  by_cases he : s.tx_ringbuf_head = s.tx_ringbuf_tail
  · simp [monitor_uart_tx_char, he]
  · have hm : (s.tx_ringbuf_tail + 1) % 64 % 2 ^ 8 = (s.tx_ringbuf_tail + 1) % 64 := by omega
    simp only [monitor_uart_tx_char, he, if_false, inc_and_wrap_64, hm]
    refine ⟨⟨fun h => ?_, fun h => absurd h (by simp)⟩, fun h => absurd h (by simp), fun _ => ?_⟩
    · omega
    · exact ⟨trivial, by omega, by omega, trivial, trivial, trivial⟩

/-- Witness of C5: a buffer holding the byte 0xFF at tail = 63 returns 255 and
wraps tail to 0. -/
theorem monitor_uart_tx_char_spec_witness :
    (monitor_uart_tx_char ⟨List.replicate 64 255, 2, 63⟩).2 = 255 ∧
    (monitor_uart_tx_char ⟨List.replicate 64 255, 2, 63⟩).1.tx_ringbuf_tail = 0 ∧
    (monitor_uart_tx_char ⟨List.replicate 64 255, 5, 5⟩).1 = ⟨List.replicate 64 255, 5, 5⟩ :=
  ⟨((monitor_uart_tx_char_spec ⟨List.replicate 64 255, 2, 63⟩).2.2 (by decide)).1.trans (by decide),
    ((monitor_uart_tx_char_spec ⟨List.replicate 64 255, 2, 63⟩).2.2 (by decide)).2.2.2.1,
    (monitor_uart_tx_char_spec ⟨List.replicate 64 255, 5, 5⟩).2.1 rfl⟩

/-! ## Buffered trace-channel reassembly -/

theorem memcpy_length (dst src : List Byte) (pos : Nat) (h : pos + src.length ≤ dst.length) :
    (memcpy dst pos src).length = dst.length := by
  simp [memcpy]
  omega

theorem take_memcpy (dst src : List Byte) (pos : Nat) (h : pos ≤ dst.length) :
    (memcpy dst pos src).take (pos + src.length) = dst.take pos ++ src := by
  have hl : (dst.take pos ++ src).length = pos + src.length := by simp [h]
  rw [memcpy, ← hl, List.take_left]

theorem take_memcpy_le (dst src : List Byte) (pos n : Nat) (h : pos ≤ dst.length) (hn : n ≤ pos) :
    (memcpy dst pos src).take n = dst.take n := by
  rw [memcpy, List.append_assoc, List.take_append_of_le_length (by simp; omega),
    List.take_take, Nat.min_eq_left hn]

theorem rd16_eq_of_take (a b : List Byte) (h : a.take 2 = b.take 2) : rd16 a 0 = rd16 b 0 := by
  have h0 : a[0]? = b[0]? := by
    have := congrArg (fun l => l[0]?) h
    simpa [List.getElem?_take] using this
  have h1 : a[1]? = b[1]? := by
    have := congrArg (fun l => l[1]?) h
    simpa [List.getElem?_take] using this
  simp [rd16, List.getD_eq_getElem?_getD, h0, h1]

theorem rd16_memcpy (dst src : List Byte) (pos : Nat) (h : pos ≤ dst.length) (h2 : 2 ≤ pos) :
    rd16 (memcpy dst pos src) 0 = rd16 dst 0 :=
  rd16_eq_of_take _ _ (take_memcpy_le dst src pos 2 h h2)

theorem memcpy_nil_zero (dst : List Byte) : memcpy dst 0 [] = dst := by
  simp [memcpy]

/-- A call that copies and does not complete the frame. -/
theorem Rtt.write_acc (s : Rtt) (buf : List Byte)
    (h1 : s.rtt_pktbuf_pos + buf.length ≤ sizeof_rtt_pktbuf)
    (h2 : s.rtt_pktbuf_pos + buf.length
      < sizeof_data_len + rd16 (memcpy s.rtt_pktbuf s.rtt_pktbuf_pos buf) 0) :
    s.monitor_write buf = { s with
      rtt_pktbuf := memcpy s.rtt_pktbuf s.rtt_pktbuf_pos buf
      rtt_pktbuf_pos := s.rtt_pktbuf_pos + buf.length } := by
  have hd : ¬ (s.rtt_pktbuf_pos + buf.length > sizeof_rtt_pktbuf) := by omega
  simp [Rtt.monitor_write, hd, h2]

/-- A call that copies and completes the frame. -/
theorem Rtt.write_flush (s : Rtt) (buf : List Byte)
    (h1 : s.rtt_pktbuf_pos + buf.length ≤ sizeof_rtt_pktbuf)
    (h2 : ¬ s.rtt_pktbuf_pos + buf.length
      < sizeof_data_len + rd16 (memcpy s.rtt_pktbuf s.rtt_pktbuf_pos buf) 0) :
    s.monitor_write buf =
      { rtt_pktbuf := memcpy s.rtt_pktbuf s.rtt_pktbuf_pos buf
        rtt_pktbuf_pos := 0
        channel := s.channel ++
          [(memcpy s.rtt_pktbuf s.rtt_pktbuf_pos buf).take (s.rtt_pktbuf_pos + buf.length)] } := by
  have hd : ¬ (s.rtt_pktbuf_pos + buf.length > sizeof_rtt_pktbuf) := by omega
  simp [Rtt.monitor_write, hd, h2]

/-- A call that discards and does not complete the frame. -/
theorem Rtt.write_skip (s : Rtt) (buf : List Byte)
    (h1 : s.rtt_pktbuf_pos + buf.length > sizeof_rtt_pktbuf)
    (h2 : s.rtt_pktbuf_pos + buf.length < sizeof_data_len + rd16 s.rtt_pktbuf 0) :
    s.monitor_write buf = { s with rtt_pktbuf_pos := s.rtt_pktbuf_pos + buf.length } := by
  simp [Rtt.monitor_write, h1, h2]

/-- A call that discards and completes the frame. -/
theorem Rtt.write_drop (s : Rtt) (buf : List Byte)
    (h1 : s.rtt_pktbuf_pos + buf.length > sizeof_rtt_pktbuf)
    (h2 : ¬ s.rtt_pktbuf_pos + buf.length < sizeof_data_len + rd16 s.rtt_pktbuf 0) :
    s.monitor_write buf = { s with rtt_pktbuf_pos := 0 } := by
  simp [Rtt.monitor_write, h1, h2]

/-- An empty call at cursor 0 changes nothing. -/
theorem Rtt.write_nil_idle (s : Rtt) (h : s.rtt_pktbuf_pos = 0) : s.monitor_write [] = s := by
  have h2 : s.rtt_pktbuf_pos + ([] : List Byte).length
      < sizeof_data_len + rd16 (memcpy s.rtt_pktbuf s.rtt_pktbuf_pos []) 0 := by
    simp [h, sizeof_data_len]
  rw [Rtt.write_acc s [] (by simp [h, sizeof_rtt_pktbuf]) h2]
  cases s
  simp at h
  simp [h, memcpy_nil_zero]

theorem Rtt.fold_nil_idle (frags : List (List Byte)) (hf : ∀ f ∈ frags, f = []) :
    ∀ s : Rtt, s.rtt_pktbuf_pos = 0 → frags.foldl Rtt.monitor_write s = s := by
  induction frags with
  | nil => intro s _; rfl
  | cons f rest ih =>
    intro s hs
    have hnil : f = [] := hf f (by simp)
    subst hnil
    rw [List.foldl_cons, Rtt.write_nil_idle s hs]
    exact ih (fun g hg => hf g (by simp [hg])) s hs

/-- A fragment that does not complete a fitting frame is accumulated. -/
theorem RttAcc.write_lt {s : Rtt} {acc : List Byte} {total : Nat} (h : RttAcc s acc total)
    (buf : List Byte) (hlt : acc.length + buf.length < total) :
    (s.monitor_write buf).channel = s.channel ∧ RttAcc (s.monitor_write buf) (acc ++ buf) total := by
  obtain ⟨hlen, hpos, htwo, hacc, htotal, hfits⟩ := h
  have hle : s.rtt_pktbuf_pos ≤ s.rtt_pktbuf.length := by omega
  have hrd := rd16_memcpy s.rtt_pktbuf buf s.rtt_pktbuf_pos hle (by omega)
  rw [Rtt.write_acc s buf (by omega) (by rw [hrd]; omega)]
  refine ⟨rfl, ?_, ?_, ?_, ?_, ?_, hfits⟩
  · simp only
    rw [memcpy_length _ _ _ (by omega)]
    exact hlen
  · simp [hpos]
  · simp; omega
  · simp only
    rw [take_memcpy _ _ _ hle, hacc]
  · simp only
    rw [hrd]
    exact htotal

/-- The fragment that completes a fitting frame flushes it in one write. -/
theorem RttAcc.write_eq {s : Rtt} {acc : List Byte} {total : Nat} (h : RttAcc s acc total)
    (buf : List Byte) (heq : acc.length + buf.length = total) :
    (s.monitor_write buf).channel = s.channel ++ [acc ++ buf] ∧
    (s.monitor_write buf).rtt_pktbuf_pos = 0 ∧
    (s.monitor_write buf).rtt_pktbuf.length = sizeof_rtt_pktbuf := by
  obtain ⟨hlen, hpos, htwo, hacc, htotal, hfits⟩ := h
  have hle : s.rtt_pktbuf_pos ≤ s.rtt_pktbuf.length := by omega
  have hrd := rd16_memcpy s.rtt_pktbuf buf s.rtt_pktbuf_pos hle (by omega)
  rw [Rtt.write_flush s buf (by omega) (by rw [hrd]; omega)]
  refine ⟨?_, rfl, ?_⟩
  · simp only
    rw [take_memcpy _ _ _ hle, hacc]
  · simp only
    rw [memcpy_length _ _ _ (by omega)]
    exact hlen

/-- Fragments that together do not complete a fitting frame cause no write. -/
theorem RttAcc.fold_lt (frags : List (List Byte)) :
    ∀ {s : Rtt} {acc : List Byte} {total : Nat}, RttAcc s acc total →
      acc.length + frags.flatten.length < total →
      (frags.foldl Rtt.monitor_write s).channel = s.channel ∧
      RttAcc (frags.foldl Rtt.monitor_write s) (acc ++ frags.flatten) total := by
  induction frags with
  | nil => intro s acc total h _; exact ⟨rfl, by simpa using h⟩
  | cons f rest ih =>
    intro s acc total h hlt
    simp only [List.flatten_cons, List.length_append] at hlt
    obtain ⟨hc, h2⟩ := h.write_lt f (by omega)
    obtain ⟨hc3, h3⟩ := ih h2 (by simp only [List.length_append]; omega)
    exact ⟨by rw [List.foldl_cons, hc3, hc],
      by rw [List.foldl_cons, List.flatten_cons, ← List.append_assoc]; exact h3⟩

/-- Fragments that together complete a fitting frame cause exactly one write,
of the whole frame, and leave the cursor at 0. -/
theorem RttAcc.fold_eq (frags : List (List Byte)) :
    ∀ {s : Rtt} {acc : List Byte} {total : Nat}, RttAcc s acc total →
      acc.length < total → acc.length + frags.flatten.length = total →
      (frags.foldl Rtt.monitor_write s).channel = s.channel ++ [acc ++ frags.flatten] ∧
      (frags.foldl Rtt.monitor_write s).rtt_pktbuf_pos = 0 ∧
      (frags.foldl Rtt.monitor_write s).rtt_pktbuf.length = sizeof_rtt_pktbuf := by
  induction frags with
  | nil => intro s acc total _ hlt heq; simp at heq; omega
  | cons f rest ih =>
    intro s acc total h hlt heq
    simp only [List.flatten_cons, List.length_append] at heq
    by_cases hf : acc.length + f.length < total
    · obtain ⟨hc, h2⟩ := h.write_lt f hf
      obtain ⟨hc3, hp3, hl3⟩ := ih h2 (by simp only [List.length_append]; omega)
        (by simp only [List.length_append]; omega)
      exact ⟨by rw [List.foldl_cons, hc3, hc, List.flatten_cons, List.append_assoc], hp3, hl3⟩
    · obtain ⟨hc, hp, hl⟩ := h.write_eq f (by omega)
      have hrest : rest.flatten = [] := List.eq_nil_of_length_eq_zero (by omega)
      have hall : ∀ g ∈ rest, g = [] := by
        intro g hg
        exact List.flatten_eq_nil_iff.mp hrest g hg
      rw [List.foldl_cons, Rtt.fold_nil_idle rest hall _ hp, List.flatten_cons, hrest,
        List.append_nil]
      exact ⟨hc, hp, hl⟩

/-- A fragment that does not complete an oversized frame causes no write. -/
theorem RttOver.skip_lt {s : Rtt} {total : Nat} (h : RttOver s total)
    (buf : List Byte) (hlt : s.rtt_pktbuf_pos + buf.length < total) :
    (s.monitor_write buf).channel = s.channel ∧
    (s.monitor_write buf).rtt_pktbuf_pos = s.rtt_pktbuf_pos + buf.length ∧
    RttOver (s.monitor_write buf) total := by
  obtain ⟨hlen, htwo, htotal, hover⟩ := h
  by_cases hd : s.rtt_pktbuf_pos + buf.length > sizeof_rtt_pktbuf
  · rw [Rtt.write_skip s buf hd (by omega)]
    exact ⟨rfl, rfl, hlen, by simp only; omega, htotal, hover⟩
  · have hle : s.rtt_pktbuf_pos ≤ s.rtt_pktbuf.length := by omega
    have hrd := rd16_memcpy s.rtt_pktbuf buf s.rtt_pktbuf_pos hle htwo
    rw [Rtt.write_acc s buf (by omega) (by rw [hrd]; omega)]
    refine ⟨rfl, rfl, ?_, by simp only; omega, ?_, hover⟩
    · simp only
      rw [memcpy_length _ _ _ (by omega)]
      exact hlen
    · simp only
      rw [hrd]
      exact htotal

/-- The fragment that completes an oversized frame causes no write and resets
the cursor. -/
theorem RttOver.drop_eq {s : Rtt} {total : Nat} (h : RttOver s total)
    (buf : List Byte) (heq : s.rtt_pktbuf_pos + buf.length = total) :
    (s.monitor_write buf).channel = s.channel ∧
    (s.monitor_write buf).rtt_pktbuf_pos = 0 ∧
    (s.monitor_write buf).rtt_pktbuf.length = sizeof_rtt_pktbuf := by
  obtain ⟨hlen, htwo, htotal, hover⟩ := h
  rw [Rtt.write_drop s buf (by omega) (by omega)]
  exact ⟨rfl, rfl, hlen⟩

/-- Fragments that together complete an oversized frame cause no write and
leave the cursor at 0. -/
theorem RttOver.fold_drop (frags : List (List Byte)) :
    ∀ {s : Rtt} {total : Nat}, RttOver s total →
      s.rtt_pktbuf_pos < total → s.rtt_pktbuf_pos + frags.flatten.length = total →
      (frags.foldl Rtt.monitor_write s).channel = s.channel ∧
      (frags.foldl Rtt.monitor_write s).rtt_pktbuf_pos = 0 ∧
      (frags.foldl Rtt.monitor_write s).rtt_pktbuf.length = sizeof_rtt_pktbuf := by
  induction frags with
  | nil => intro s total _ hlt heq; simp at heq; omega
  | cons f rest ih =>
    intro s total h hlt heq
    simp only [List.flatten_cons, List.length_append] at heq
    by_cases hf : s.rtt_pktbuf_pos + f.length < total
    · obtain ⟨hc, hp, h2⟩ := h.skip_lt f hf
      obtain ⟨hc3, hp3, hl3⟩ := ih h2 (by omega) (by omega)
      exact ⟨by rw [List.foldl_cons, hc3, hc], hp3, hl3⟩
    · obtain ⟨hc, hp, hl⟩ := h.drop_eq f (by omega)
      have hrest : rest.flatten = [] := List.eq_nil_of_length_eq_zero (by omega)
      have hall : ∀ g ∈ rest, g = [] := by
        intro g hg
        exact List.flatten_eq_nil_iff.mp hrest g hg
      rw [List.foldl_cons, Rtt.fold_nil_idle rest hall _ hp]
      exact ⟨hc, hp, hl⟩

/-! ## The header call -/

theorem encode_monitor_hdr_data_len (P : Priv) (clk : Clock) (ts : Int) (opcode len : Nat)
    (h : 4 + (sizeof_type + sizeof_ts32) + len < 2 ^ 16) :
    (encode_monitor_hdr P clk ts opcode len).data_len = 9 + len := by
  simp only [encode_monitor_hdr, sizeof_type, sizeof_ts32] at h ⊢
  omega

theorem encode_monitor_hdr_len_mod (P : Priv) (clk : Clock) (ts : Int) (opcode len : Nat) :
    encode_monitor_hdr P clk ts opcode (len % 2 ^ 16) = encode_monitor_hdr P clk ts opcode len := by
  simp [encode_monitor_hdr]

theorem rd16_memcpy_hdr (dst : List Byte) (h : ble_monitor_hdr) (hd : h.data_len < 2 ^ 16) :
    rd16 (memcpy dst 0 h.bytes) 0 = h.data_len := by
  simp only [memcpy, List.take_zero, List.nil_append, ble_monitor_hdr.bytes, List.append_assoc]
  exact rd16_le16_append _ hd _

theorem memcpy_zero_take (dst src : List Byte) : (memcpy dst 0 src).take src.length = src := by
  simp [memcpy]

/-- The header call of a fitting frame with a non-empty payload. -/
theorem Rtt.write_hdr_acc (s : Rtt) (h : ble_monitor_hdr) (total : Nat)
    (hpos : s.rtt_pktbuf_pos = 0) (hlen : s.rtt_pktbuf.length = sizeof_rtt_pktbuf)
    (hd : sizeof_data_len + h.data_len = total) (hlt : sizeof_hdr < total)
    (hfit : total ≤ sizeof_rtt_pktbuf) :
    (s.monitor_write h.bytes).channel = s.channel ∧ RttAcc (s.monitor_write h.bytes) h.bytes total := by
  have hb := hdr_bytes_length h
  have hrd := rd16_memcpy_hdr s.rtt_pktbuf h (by simp [sizeof_rtt_pktbuf, sizeof_data_len] at *; omega)
  rw [Rtt.write_acc s h.bytes (by rw [hpos, hb]; simp [sizeof_hdr, sizeof_rtt_pktbuf])
    (by rw [hpos, hrd, hb]; omega)]
  refine ⟨rfl, ?_, ?_, ?_, ?_, ?_, hfit⟩
  · simp only
    rw [memcpy_length _ _ _ (by rw [hpos, hb, hlen]; simp [sizeof_hdr, sizeof_rtt_pktbuf])]
    exact hlen
  · simp [hpos]
  · rw [hb]; simp [sizeof_hdr]
  · simp only [hpos, Nat.zero_add]
    exact memcpy_zero_take _ _
  · simp only [hpos]
    rw [hrd]
    exact hd

/-- The header call of a frame with an empty payload: the frame is complete
and is flushed by this call. -/
theorem Rtt.write_hdr_flush (s : Rtt) (h : ble_monitor_hdr)
    (hpos : s.rtt_pktbuf_pos = 0) (hlen : s.rtt_pktbuf.length = sizeof_rtt_pktbuf)
    (hd : sizeof_data_len + h.data_len ≤ sizeof_hdr) (hd16 : h.data_len < 2 ^ 16) :
    (s.monitor_write h.bytes).channel = s.channel ++ [h.bytes] ∧
    (s.monitor_write h.bytes).rtt_pktbuf_pos = 0 ∧
    (s.monitor_write h.bytes).rtt_pktbuf.length = sizeof_rtt_pktbuf := by
  have hb := hdr_bytes_length h
  have hrd := rd16_memcpy_hdr s.rtt_pktbuf h hd16
  rw [Rtt.write_flush s h.bytes (by rw [hpos, hb]; simp [sizeof_hdr, sizeof_rtt_pktbuf])
    (by rw [hpos, hrd, hb]; omega)]
  refine ⟨?_, rfl, ?_⟩
  · simp only [hpos, Nat.zero_add]
    rw [memcpy_zero_take]
  · simp only
    rw [memcpy_length _ _ _ (by rw [hpos, hb, hlen]; simp [sizeof_hdr, sizeof_rtt_pktbuf])]
    exact hlen

/-- The header call of an oversized frame whose length field does not wrap. -/
theorem Rtt.write_hdr_over (s : Rtt) (h : ble_monitor_hdr) (total : Nat)
    (hpos : s.rtt_pktbuf_pos = 0) (hlen : s.rtt_pktbuf.length = sizeof_rtt_pktbuf)
    (hd : sizeof_data_len + h.data_len = total) (hd16 : h.data_len < 2 ^ 16)
    (hover : sizeof_rtt_pktbuf < total) :
    (s.monitor_write h.bytes).channel = s.channel ∧
    (s.monitor_write h.bytes).rtt_pktbuf_pos = sizeof_hdr ∧
    RttOver (s.monitor_write h.bytes) total := by
  have hb := hdr_bytes_length h
  have hrd := rd16_memcpy_hdr s.rtt_pktbuf h hd16
  rw [Rtt.write_acc s h.bytes (by rw [hpos, hb]; simp [sizeof_hdr, sizeof_rtt_pktbuf])
    (by rw [hpos, hrd, hb]; simp [sizeof_hdr, sizeof_rtt_pktbuf] at *; omega)]
  refine ⟨rfl, by simp [hpos, hb], ?_, ?_, ?_, hover⟩
  · simp only
    rw [memcpy_length _ _ _ (by rw [hpos, hb, hlen]; simp [sizeof_hdr, sizeof_rtt_pktbuf])]
    exact hlen
  · simp [hpos, hb, sizeof_hdr]
  · simp only [hpos]
    rw [hrd]
    exact hd

/-! ## Chains of mbufs -/

theorem om_length_fold (om : List (List Byte)) :
    ∀ a : Nat, a < 2 ^ 16 →
      om.foldl (fun length seg => (length + seg.length) % 2 ^ 16) a
        = (a + om.flatten.length) % 2 ^ 16 := by
  induction om with
  | nil => intro a ha; simp; omega
  | cons seg rest ih =>
    intro a ha
    rw [List.foldl_cons, ih _ (Nat.mod_lt _ (by decide))]
    simp only [List.flatten_cons, List.length_append]
    omega

theorem om_length_eq (om : List (List Byte)) : om_length om = om.flatten.length % 2 ^ 16 := by
  rw [om_length, om_length_fold om 0 (by decide), Nat.zero_add]

theorem ble_monitor_send_om_eq {σ : Type} (mw : σ → List Byte → σ) (P : Priv) (clk : Clock)
    (s : σ) (opcode : Nat) (om : List (List Byte)) :
    ble_monitor_send_om mw P clk s opcode om
      = (om.foldl mw (mw s (encode_monitor_hdr P clk (-1) opcode om.flatten.length).bytes), 0) := by
  simp only [ble_monitor_send_om, om_length_eq, encode_monitor_hdr_len_mod]

theorem ble_monitor_send_eq_om {σ : Type} (mw : σ → List Byte → σ) (P : Priv) (clk : Clock)
    (s : σ) (opcode : Nat) (data : List Byte) :
    ble_monitor_send mw P clk s opcode data = ble_monitor_send_om mw P clk s opcode [data] := by
  rw [ble_monitor_send_om_eq]
  simp [ble_monitor_send]

/-! ## Frames through the buffered trace channel -/

/-- C6 (as stated, refuted): with an empty payload, which fits, the one
channel write of the frame is issued during the header call, the first of the
two monitor_write calls of ble_monitor_send, and the last call writes nothing. -/
theorem rtt_empty_payload_flushes_on_header_call :
    sizeof_hdr + ([] : List Byte).length ≤ sizeof_rtt_pktbuf ∧
    (Rtt.monitor_write (Rtt.init (List.replicate 256 0))
      (encode_monitor_hdr ⟨8, 0, 13, 12, 8⟩ ⟨0, 0, 0, 0⟩ (-1) 10 0).bytes).channel
        = [[9, 0, 10, 0, 0, 5, 8, 0, 0, 0, 0]] ∧
    (ble_monitor_send Rtt.monitor_write ⟨8, 0, 13, 12, 8⟩ ⟨0, 0, 0, 0⟩
      (Rtt.init (List.replicate 256 0)) 10 []).1.channel
        = [[9, 0, 10, 0, 0, 5, 8, 0, 0, 0, 0]] := by
  decide

/-- C6 (amended): starting with the cursor at 0, for every opcode and every
chain of payload segments such that header size + payload length <= 256, the
monitor_write calls of ble_monitor_send_om (header, then each segment) perform
exactly one channel write, whose bytes are the header bytes followed by the
payload bytes, and leave the cursor at 0; no channel write is made as long as
the calls made so far have not delivered the whole payload, so the write is
issued by the call that delivers the last byte of the frame.  A call of
ble_monitor_send is the call of ble_monitor_send_om on the chain of one
segment. -/
theorem rtt_fitting_frame (P : Priv) (clk : Clock) (s : Rtt) (opcode : Nat)
    (om : List (List Byte))
    (hpos : s.rtt_pktbuf_pos = 0) (hlen : s.rtt_pktbuf.length = sizeof_rtt_pktbuf)
    (hfit : sizeof_hdr + om.flatten.length ≤ sizeof_rtt_pktbuf) :
    (ble_monitor_send_om Rtt.monitor_write P clk s opcode om).1.channel
      = s.channel ++ [(encode_monitor_hdr P clk (-1) opcode om.flatten.length).bytes ++ om.flatten] ∧
    (ble_monitor_send_om Rtt.monitor_write P clk s opcode om).1.rtt_pktbuf_pos = 0 ∧
    (ble_monitor_send_om Rtt.monitor_write P clk s opcode om).1.rtt_pktbuf.length
      = sizeof_rtt_pktbuf ∧
    (∀ k : Nat, (om.take k).flatten.length < om.flatten.length →
      ((om.take k).foldl Rtt.monitor_write
        (Rtt.monitor_write s (encode_monitor_hdr P clk (-1) opcode om.flatten.length).bytes)).channel
        = s.channel) ∧
    (∀ data : List Byte, ble_monitor_send Rtt.monitor_write P clk s opcode data
      = ble_monitor_send_om Rtt.monitor_write P clk s opcode [data]) := by
  have h16 : 4 + (sizeof_type + sizeof_ts32) + om.flatten.length < 2 ^ 16 := by
    have h := hfit
    simp only [sizeof_hdr, sizeof_rtt_pktbuf] at h
    simp only [sizeof_type, sizeof_ts32]
    omega
  have hdl := encode_monitor_hdr_data_len P clk (-1) opcode om.flatten.length h16
  have hb := hdr_bytes_length (encode_monitor_hdr P clk (-1) opcode om.flatten.length)
  have htot : sizeof_data_len
      + (encode_monitor_hdr P clk (-1) opcode om.flatten.length).data_len
      = sizeof_hdr + om.flatten.length := by
    rw [hdl]
    simp only [sizeof_data_len, sizeof_hdr]
    omega
  have key : ∀ frags : List (List Byte), 0 < om.flatten.length →
      frags.flatten.length < om.flatten.length →
      (frags.foldl Rtt.monitor_write
        (Rtt.monitor_write s (encode_monitor_hdr P clk (-1) opcode om.flatten.length).bytes)).channel
        = s.channel := by
    intro frags h0 hlt
    obtain ⟨hc, hacc⟩ := Rtt.write_hdr_acc s _ (sizeof_hdr + om.flatten.length) hpos hlen
      htot (by omega) hfit
    obtain ⟨hc2, _⟩ := RttAcc.fold_lt frags hacc (by rw [hb]; omega)
    rw [hc2, hc]
  have main : (om.foldl Rtt.monitor_write
        (Rtt.monitor_write s (encode_monitor_hdr P clk (-1) opcode om.flatten.length).bytes)).channel
        = s.channel ++ [(encode_monitor_hdr P clk (-1) opcode om.flatten.length).bytes ++ om.flatten] ∧
      (om.foldl Rtt.monitor_write
        (Rtt.monitor_write s (encode_monitor_hdr P clk (-1) opcode om.flatten.length).bytes)).rtt_pktbuf_pos
        = 0 ∧
      (om.foldl Rtt.monitor_write
        (Rtt.monitor_write s (encode_monitor_hdr P clk (-1) opcode om.flatten.length).bytes)).rtt_pktbuf.length
        = sizeof_rtt_pktbuf := by
    by_cases h0 : om.flatten.length = 0
    · obtain ⟨hc, hp, hl⟩ := Rtt.write_hdr_flush s
        (encode_monitor_hdr P clk (-1) opcode om.flatten.length) hpos hlen
        (by rw [htot, h0]; exact Nat.le_refl _) (by rw [hdl, h0]; decide)
      have hnil : om.flatten = [] := List.eq_nil_of_length_eq_zero h0
      have hall : ∀ g ∈ om, g = [] := fun g hg => List.flatten_eq_nil_iff.mp hnil g hg
      rw [Rtt.fold_nil_idle om hall _ hp]
      refine ⟨?_, hp, hl⟩
      rw [hc, hnil, List.append_nil]
    · obtain ⟨hc, hacc⟩ := Rtt.write_hdr_acc s
        (encode_monitor_hdr P clk (-1) opcode om.flatten.length)
        (sizeof_hdr + om.flatten.length) hpos hlen htot (by omega) hfit
      obtain ⟨hc2, hp2, hl2⟩ := RttAcc.fold_eq om hacc (by rw [hb]; omega) (by rw [hb])
      refine ⟨?_, hp2, hl2⟩
      rw [hc2, hc]
  rw [ble_monitor_send_om_eq]
  exact ⟨main.1, main.2.1, main.2.2, fun k hk => key _ (by omega) hk,
    fun data => ble_monitor_send_eq_om _ P clk s opcode data⟩

/-- Witness of C6 (amended): a payload of three bytes in the segments [1, 2],
[] and [3]. -/
theorem rtt_fitting_frame_witness :
    (Rtt.init (List.replicate 256 0)).rtt_pktbuf_pos = 0 ∧
    (Rtt.init (List.replicate 256 0)).rtt_pktbuf.length = sizeof_rtt_pktbuf ∧
    sizeof_hdr + ([[1, 2], [], [3]] : List (List Byte)).flatten.length ≤ sizeof_rtt_pktbuf ∧
    (ble_monitor_send_om Rtt.monitor_write ⟨8, 0, 13, 12, 8⟩ ⟨0, 0, 0, 0⟩
      (Rtt.init (List.replicate 256 0)) 10 [[1, 2], [], [3]]).1.channel
        = [[12, 0, 10, 0, 0, 5, 8, 0, 0, 0, 0, 1, 2, 3]] :=
  ⟨rfl, List.length_replicate _ _, by decide,
    (rtt_fitting_frame ⟨8, 0, 13, 12, 8⟩ ⟨0, 0, 0, 0⟩ (Rtt.init (List.replicate 256 0)) 10
      [[1, 2], [], [3]] rfl (List.length_replicate _ _) (by decide)).1.trans (by decide)⟩

/-- C7 (as stated, refuted): a payload of 65527 bytes fits the 16-bit length
field and makes the frame exceed 256 bytes, but 4 + hdr_len + 65527 wraps to
data_len = 0, so the header call already counts as a complete frame and the
header is written to the channel. -/
theorem rtt_oversized_wrap_writes_header :
    sizeof_rtt_pktbuf < sizeof_hdr + (List.replicate 65527 (0 : Byte)).length ∧
    (List.replicate 65527 (0 : Byte)).length < 2 ^ 16 ∧
    (ble_monitor_send Rtt.monitor_write ⟨8, 0, 13, 12, 8⟩ ⟨0, 0, 0, 0⟩
      (Rtt.init (List.replicate 256 0)) 10 (List.replicate 65527 0)).1.channel
        = [[0, 0, 10, 0, 0, 5, 8, 0, 0, 0, 0]] := by
  have gen : ∀ data : List Byte, data.length = 65527 →
      (ble_monitor_send Rtt.monitor_write ⟨8, 0, 13, 12, 8⟩ ⟨0, 0, 0, 0⟩
        (Rtt.init (List.replicate 256 0)) 10 data).1.channel
          = [[0, 0, 10, 0, 0, 5, 8, 0, 0, 0, 0]] := by
    intro data hd
    have hdl : (encode_monitor_hdr ⟨8, 0, 13, 12, 8⟩ ⟨0, 0, 0, 0⟩ (-1) 10 65527).data_len = 0 := by
      decide
    have hbytes : (encode_monitor_hdr ⟨8, 0, 13, 12, 8⟩ ⟨0, 0, 0, 0⟩ (-1) 10 65527).bytes
        = [0, 0, 10, 0, 0, 5, 8, 0, 0, 0, 0] := by
      decide
    have hrd := rd16_memcpy_hdr (List.replicate 256 0)
      (encode_monitor_hdr ⟨8, 0, 13, 12, 8⟩ ⟨0, 0, 0, 0⟩ (-1) 10 65527) (by rw [hdl]; decide)
    rw [hdl, hbytes] at hrd
    simp only [ble_monitor_send, hd, hbytes]
    rw [Rtt.write_flush (Rtt.init (List.replicate 256 0)) _
      (by decide) (by simp only [Rtt.init]; rw [hrd]; decide)]
    rw [Rtt.write_drop _ data (by simp only [hd]; decide)
      (by simp only [hd, Rtt.init]; rw [hrd]; decide)]
    simp only [Rtt.init, List.nil_append, Nat.zero_add]
    rw [memcpy_zero_take]
  refine ⟨?_, ?_, gen _ (List.length_replicate _ _)⟩
  · rw [List.length_replicate]; decide
  · rw [List.length_replicate]; decide

/-- C7 (amended): starting with the cursor at 0, for every frame emitted by
ble_monitor_send_om whose header size + payload length exceeds 256 and whose
length 4 + hdr_len + payload length fits the 16-bit length field, however the
payload is split into segments, no channel write is performed for that frame,
the cursor is back at 0 after its last segment, and a fitting frame sent
immediately afterwards is flushed in one write of exactly its own header and
payload bytes.  A call of ble_monitor_send is the call of ble_monitor_send_om
on the chain of one segment. -/
theorem rtt_oversized_frame (P : Priv) (clk : Clock) (s : Rtt) (opcode : Nat)
    (om : List (List Byte))
    (hpos : s.rtt_pktbuf_pos = 0) (hlen : s.rtt_pktbuf.length = sizeof_rtt_pktbuf)
    (hover : sizeof_rtt_pktbuf < sizeof_hdr + om.flatten.length)
    (h16 : 4 + (sizeof_type + sizeof_ts32) + om.flatten.length < 2 ^ 16) :
    (ble_monitor_send_om Rtt.monitor_write P clk s opcode om).1.channel = s.channel ∧
    (ble_monitor_send_om Rtt.monitor_write P clk s opcode om).1.rtt_pktbuf_pos = 0 ∧
    (∀ (clk2 : Clock) (opcode2 : Nat) (om2 : List (List Byte)),
      sizeof_hdr + om2.flatten.length ≤ sizeof_rtt_pktbuf →
      (ble_monitor_send_om Rtt.monitor_write P clk2
          (ble_monitor_send_om Rtt.monitor_write P clk s opcode om).1 opcode2 om2).1.channel
        = s.channel
            ++ [(encode_monitor_hdr P clk2 (-1) opcode2 om2.flatten.length).bytes ++ om2.flatten] ∧
      (ble_monitor_send_om Rtt.monitor_write P clk2
          (ble_monitor_send_om Rtt.monitor_write P clk s opcode om).1 opcode2 om2).1.rtt_pktbuf_pos
        = 0) ∧
    (∀ (clk3 : Clock) (s3 : Rtt) (opcode3 : Nat) (data : List Byte),
      ble_monitor_send Rtt.monitor_write P clk3 s3 opcode3 data
        = ble_monitor_send_om Rtt.monitor_write P clk3 s3 opcode3 [data]) := by
  have hdl := encode_monitor_hdr_data_len P clk (-1) opcode om.flatten.length h16
  have htot : sizeof_data_len
      + (encode_monitor_hdr P clk (-1) opcode om.flatten.length).data_len
      = sizeof_hdr + om.flatten.length := by
    rw [hdl]
    simp only [sizeof_data_len, sizeof_hdr]
    omega
  have hd16 : (encode_monitor_hdr P clk (-1) opcode om.flatten.length).data_len < 2 ^ 16 := by
    rw [hdl]
    simp only [sizeof_type, sizeof_ts32] at h16
    omega
  obtain ⟨hc, hp, hov⟩ := Rtt.write_hdr_over s
    (encode_monitor_hdr P clk (-1) opcode om.flatten.length)
    (sizeof_hdr + om.flatten.length) hpos hlen htot hd16 hover
  have hpos0 : 0 < om.flatten.length := by
    simp only [sizeof_hdr, sizeof_rtt_pktbuf] at hover
    omega
  obtain ⟨hc2, hp2, hl2⟩ := RttOver.fold_drop om hov (by rw [hp]; omega) (by rw [hp])
  have hs1 : (ble_monitor_send_om Rtt.monitor_write P clk s opcode om).1
      = om.foldl Rtt.monitor_write
          (Rtt.monitor_write s (encode_monitor_hdr P clk (-1) opcode om.flatten.length).bytes) := by
    rw [ble_monitor_send_om_eq]
  rw [hs1]
  refine ⟨by rw [hc2, hc], hp2, ?_, fun clk3 s3 opcode3 data =>
    ble_monitor_send_eq_om _ P clk3 s3 opcode3 data⟩
  intro clk2 opcode2 om2 hfit
  have hdl2 := encode_monitor_hdr_data_len P clk2 (-1) opcode2 om2.flatten.length (by
    have h := hfit
    simp only [sizeof_hdr, sizeof_rtt_pktbuf] at h
    simp only [sizeof_type, sizeof_ts32]
    omega)
  have hb2 := hdr_bytes_length (encode_monitor_hdr P clk2 (-1) opcode2 om2.flatten.length)
  have htot2 : sizeof_data_len
      + (encode_monitor_hdr P clk2 (-1) opcode2 om2.flatten.length).data_len
      = sizeof_hdr + om2.flatten.length := by
    rw [hdl2]
    simp only [sizeof_data_len, sizeof_hdr]
    omega
  rw [ble_monitor_send_om_eq]
  simp only
  by_cases h0 : om2.flatten.length = 0
  · obtain ⟨hc3, hp3, hl3⟩ := Rtt.write_hdr_flush _
      (encode_monitor_hdr P clk2 (-1) opcode2 om2.flatten.length) hp2 hl2
      (by rw [htot2, h0]; exact Nat.le_refl _) (by rw [hdl2, h0]; decide)
    have hnil : om2.flatten = [] := List.eq_nil_of_length_eq_zero h0
    have hall : ∀ g ∈ om2, g = [] := fun g hg => List.flatten_eq_nil_iff.mp hnil g hg
    rw [Rtt.fold_nil_idle om2 hall _ hp3]
    refine ⟨?_, hp3⟩
    rw [hc3, hc2, hc, hnil, List.append_nil]
  · obtain ⟨hc3, hacc⟩ := Rtt.write_hdr_acc _
      (encode_monitor_hdr P clk2 (-1) opcode2 om2.flatten.length)
      (sizeof_hdr + om2.flatten.length) hp2 hl2 htot2 (by omega) hfit
    obtain ⟨hc4, hp4, _⟩ := RttAcc.fold_eq om2 hacc (by rw [hb2]; omega) (by rw [hb2])
    refine ⟨?_, hp4⟩
    rw [hc4, hc3, hc2, hc]

/-- Witness of C7 (amended): a payload of 300 bytes in segments of 200 and 100. -/
theorem rtt_oversized_frame_witness :
    (Rtt.init (List.replicate 256 0)).rtt_pktbuf_pos = 0 ∧
    (Rtt.init (List.replicate 256 0)).rtt_pktbuf.length = sizeof_rtt_pktbuf ∧
    sizeof_rtt_pktbuf < sizeof_hdr + 300 ∧
    4 + (sizeof_type + sizeof_ts32) + 300 < 2 ^ 16 ∧
    (ble_monitor_send_om Rtt.monitor_write ⟨8, 0, 13, 12, 8⟩ ⟨0, 0, 0, 0⟩
      (Rtt.init (List.replicate 256 0)) 10
      [List.replicate 200 1, List.replicate 100 2]).1.channel = [] ∧
    (ble_monitor_send_om Rtt.monitor_write ⟨8, 0, 13, 12, 8⟩ ⟨0, 0, 0, 0⟩
      (Rtt.init (List.replicate 256 0)) 10
      [List.replicate 200 1, List.replicate 100 2]).1.rtt_pktbuf_pos = 0 :=
  ⟨rfl, List.length_replicate _ _, by decide, by decide,
    (rtt_oversized_frame ⟨8, 0, 13, 12, 8⟩ ⟨0, 0, 0, 0⟩ (Rtt.init (List.replicate 256 0)) 10
      [List.replicate 200 1, List.replicate 100 2] rfl (List.length_replicate _ _)
      (by simp only [List.flatten_cons, List.flatten_nil, List.length_append,
        List.length_replicate, List.length_nil]; decide)
      (by simp only [List.flatten_cons, List.flatten_nil, List.length_append,
        List.length_replicate, List.length_nil]; decide)).1,
    (rtt_oversized_frame ⟨8, 0, 13, 12, 8⟩ ⟨0, 0, 0, 0⟩ (Rtt.init (List.replicate 256 0)) 10
      [List.replicate 200 1, List.replicate 100 2] rfl (List.length_replicate _ _)
      (by simp only [List.flatten_cons, List.flatten_nil, List.length_append,
        List.length_replicate, List.length_nil]; decide)
      (by simp only [List.flatten_cons, List.flatten_nil, List.length_append,
        List.length_replicate, List.length_nil]; decide)).2.1⟩

/-! ## Chained-buffer send -/

theorem Sink.fold (om : List (List Byte)) :
    ∀ log : List (List Byte), om.foldl Sink.monitor_write log = log ++ om := by
  induction om with
  | nil => intro log; simp
  | cons seg rest ih =>
    intro log
    rw [List.foldl_cons, ih, Sink.monitor_write, List.append_assoc]
    rfl

/-- C8: for every chain of buffer segments whose lengths sum to at most
2^16 - 1 - (4 + hdr_len), ble_monitor_send_om encodes the header with payload
length equal to the sum of all segment lengths, then makes one monitor_write
call for the header and one per segment, in the original chain order, so that
the bytes handed to the sink are the header followed by the bytes of each
segment; for the empty chain only the header is written.  The function
returns 0. -/
theorem ble_monitor_send_om_sink (P : Priv) (clk : Clock) (log : List (List Byte))
    (opcode : Nat) (om : List (List Byte))
    (hsum : (om.map List.length).sum ≤ 2 ^ 16 - 1 - (4 + (sizeof_type + sizeof_ts32))) :
    om_length om = (om.map List.length).sum ∧
    (ble_monitor_send_om Sink.monitor_write P clk log opcode om).1
      = log ++ (encode_monitor_hdr P clk (-1) opcode (om.map List.length).sum).bytes :: om ∧
    (encode_monitor_hdr P clk (-1) opcode (om.map List.length).sum).data_len
      = 4 + (sizeof_type + sizeof_ts32) + (om.map List.length).sum ∧
    ((ble_monitor_send_om Sink.monitor_write P clk log opcode om).1.drop log.length).flatten
      = (encode_monitor_hdr P clk (-1) opcode (om.map List.length).sum).bytes ++ om.flatten ∧
    (ble_monitor_send_om Sink.monitor_write P clk log opcode []).1
      = log ++ [(encode_monitor_hdr P clk (-1) opcode 0).bytes] ∧
    (ble_monitor_send_om Sink.monitor_write P clk log opcode om).2 = 0 := by
  have hfl : om.flatten.length = (om.map List.length).sum := List.length_flatten om
  have hlt : (om.map List.length).sum < 2 ^ 16 := by
    simp only [sizeof_type, sizeof_ts32] at hsum
    omega
  have hsend : (ble_monitor_send_om Sink.monitor_write P clk log opcode om).1
      = log ++ (encode_monitor_hdr P clk (-1) opcode (om.map List.length).sum).bytes :: om := by
    rw [ble_monitor_send_om_eq, hfl]
    simp only
    rw [Sink.fold, Sink.monitor_write, List.append_assoc]
    rfl
  refine ⟨?_, hsend, ?_, ?_, ?_, rfl⟩
  · rw [om_length_eq, hfl, Nat.mod_eq_of_lt hlt]
  · rw [encode_monitor_hdr_data_len _ _ _ _ _ (by
      simp only [sizeof_type, sizeof_ts32] at hsum ⊢
      omega)]
    simp only [sizeof_type, sizeof_ts32]
  · rw [hsend, List.drop_left, List.flatten_cons]
  · rw [ble_monitor_send_om_eq]
    rfl

/-- Witness of C8: a chain of the three segments [1, 2], [] and [3]. -/
theorem ble_monitor_send_om_sink_witness :
    (([[1, 2], [], [3]] : List (List Byte)).map List.length).sum
      ≤ 2 ^ 16 - 1 - (4 + (sizeof_type + sizeof_ts32)) ∧
    (ble_monitor_send_om Sink.monitor_write ⟨8, 0, 13, 12, 8⟩ ⟨0, 0, 0, 0⟩ [] 10
      [[1, 2], [], [3]]).1
      = [[12, 0, 10, 0, 0, 5, 8, 0, 0, 0, 0], [1, 2], [], [3]] :=
  ⟨by decide,
    (ble_monitor_send_om_sink ⟨8, 0, 13, 12, 8⟩ ⟨0, 0, 0, 0⟩ [] 10 [[1, 2], [], [3]]
      (by decide)).2.1.trans (by decide)⟩

/-! ## New-index record -/

theorem takeWhile_ne_zero_append (name junk : List Byte) (h : ∀ b ∈ name, b ≠ 0) :
    (name ++ 0 :: junk).takeWhile (fun b => b ≠ 0) = name := by
  induction name with
  | nil => simp [List.takeWhile]
  | cons c rest ih =>
    have hc : c ≠ 0 := h c (by simp)
    simp only [List.cons_append, List.takeWhile_cons, hc, ne_eq, not_false_eq_true,
      decide_True, if_true]
    rw [ih (fun b hb => h b (by simp [hb]))]

theorem strncpy_terminated (name junk : List Byte) (n : Nat) (h : ∀ b ∈ name, b ≠ 0) :
    strncpy (name ++ 0 :: junk) n = name.take n ++ List.replicate (n - min n name.length) 0 := by
  simp only [strncpy]
  rw [takeWhile_ne_zero_append name junk h, List.length_take]

/-- C9: for every bus id, 6-byte address and null-terminated name,
ble_monitor_new_index sends, with the new-device-index opcode, the record of
type 0, the bus id, the 6 address bytes and the name field of fixed width W;
a name of length >= W is truncated to its first W - 1 characters followed by
a null byte, and a shorter name is copied verbatim with every remaining byte
of the field set to null.  The function returns 0. -/
theorem ble_monitor_new_index_record (P : Priv) (clk : Clock) (log : List (List Byte))
    (bus : Byte) (addr : Fin 6 → Byte) (name junk : List Byte)
    (hW : 0 < P.sizeof_name) (hname : ∀ b ∈ name, b ≠ 0) :
    (ble_monitor_new_index Sink.monitor_write P clk log bus addr (name ++ 0 :: junk)).1
      = log ++
        [(encode_monitor_hdr P clk (-1) P.BLE_MONITOR_OPCODE_NEW_INDEX
            (1 + 1 + 6 + P.sizeof_name)).bytes,
         [0, bus] ++ List.ofFn addr ++
           (if P.sizeof_name ≤ name.length then name.take (P.sizeof_name - 1) ++ [0]
            else name ++ List.replicate (P.sizeof_name - name.length) 0)] ∧
    (if P.sizeof_name ≤ name.length then name.take (P.sizeof_name - 1) ++ [0]
      else name ++ List.replicate (P.sizeof_name - name.length) 0).length = P.sizeof_name ∧
    (ble_monitor_new_index Sink.monitor_write P clk log bus addr (name ++ 0 :: junk)).2 = 0 := by
  have hfield : strncpy (name ++ 0 :: junk) (P.sizeof_name - 1) ++ [0]
      = (if P.sizeof_name ≤ name.length then name.take (P.sizeof_name - 1) ++ [0]
          else name ++ List.replicate (P.sizeof_name - name.length) 0) := by
    rw [strncpy_terminated name junk _ hname]
    by_cases hge : P.sizeof_name ≤ name.length
    · have h0 : P.sizeof_name - 1 - min (P.sizeof_name - 1) name.length = 0 := by omega
      simp only [hge, if_true, h0, List.replicate_zero, List.append_nil]
    · have h1 : min (P.sizeof_name - 1) name.length = name.length := by omega
      have h2 : P.sizeof_name - name.length = (P.sizeof_name - 1 - name.length) + 1 := by omega
      simp only [hge, if_false, h1, h2]
      rw [List.take_of_length_le (by omega), List.replicate_succ', List.append_assoc]
  have hlen : (if P.sizeof_name ≤ name.length then name.take (P.sizeof_name - 1) ++ [0]
      else name ++ List.replicate (P.sizeof_name - name.length) 0).length = P.sizeof_name := by
    by_cases hge : P.sizeof_name ≤ name.length
    · simp only [hge, if_true, List.length_append, List.length_take, List.length_singleton]
      omega
    · simp only [hge, if_false, List.length_append, List.length_replicate]
      omega
  refine ⟨?_, hlen, rfl⟩
  simp only [ble_monitor_new_index, ble_monitor_send, new_index_bytes, Sink.monitor_write]
  rw [hfield]
  have hsz : 6 + P.sizeof_name + 1 + 1 = 1 + 1 + 6 + P.sizeof_name := by omega
  simp only [List.length_append, List.length_cons, List.length_nil, List.length_ofFn, hlen, hsz,
    List.append_assoc, List.cons_append, List.nil_append]

/-- Witness of C9: with a name field of 4 bytes, the name ABCDE is cut to ABC
and the name AB is padded. -/
theorem ble_monitor_new_index_record_witness :
    0 < (⟨8, 0, 13, 12, 4⟩ : Priv).sizeof_name ∧
    (∀ b ∈ ([65, 66, 67, 68, 69] : List Byte), b ≠ 0) ∧
    (ble_monitor_new_index Sink.monitor_write ⟨8, 0, 13, 12, 4⟩ ⟨0, 0, 0, 0⟩ [] 1
        (fun i => i.val) ([65, 66, 67, 68, 69] ++ 0 :: [7])).1
      = [[21, 0, 0, 0, 0, 5, 8, 0, 0, 0, 0], [0, 1, 0, 1, 2, 3, 4, 5, 65, 66, 67, 0]] :=
  ⟨by decide, by simp,
    (ble_monitor_new_index_record ⟨8, 0, 13, 12, 4⟩ ⟨0, 0, 0, 0⟩ [] 1 (fun i => i.val)
      [65, 66, 67, 68, 69] [7] (by decide) (by simp)).1.trans (by decide)⟩

/-! ## Line accumulator -/

theorem take_succ_set (buf : List Byte) (n : Nat) (b : Byte) (h : n < buf.length) :
    (buf.set n b).take (n + 1) = buf.take n ++ [b] := by
  induction buf generalizing n with
  | nil => simp at h
  | cons c rest ih =>
    cases n with
    | zero => simp
    | succ m =>
      simp only [List.set_cons_succ, List.take_succ_cons, List.cons_append]
      rw [ih m (by simpa using h)]

/-- A call of ble_monitor_out that stores its character. -/
theorem ble_monitor_out_store {σ : Type} (mw : σ → List Byte → σ) (P : Priv) (clk : Clock)
    (st : OutAcc × σ) (c : Int) (hc : c ≠ 10) (hl : st.1.len < 127) :
    ble_monitor_out mw P clk st c
      = (({ buf := st.1.buf.set st.1.len (u8OfInt c), len := st.1.len + 1 }, st.2), c) := by
  have h : c ≠ 10 ∧ st.1.len < sizeof_buf - 1 := ⟨hc, hl⟩
  rw [ble_monitor_out, if_pos h]

/-- A call of ble_monitor_out with the newline. -/
theorem ble_monitor_out_newline {σ : Type} (mw : σ → List Byte → σ) (P : Priv) (clk : Clock)
    (st : OutAcc × σ) :
    ble_monitor_out mw P clk st 10
      = (({ buf := st.1.buf.set st.1.len 0, len := 0 },
          (ble_monitor_send mw P clk st.2 P.BLE_MONITOR_OPCODE_SYSTEM_NOTE
            ((st.1.buf.set st.1.len 0).take (st.1.len + 1))).1), 10) := by
  have h : ¬ ((10 : Int) ≠ 10 ∧ st.1.len < sizeof_buf - 1) := fun h => h.1 rfl
  rw [ble_monitor_out, if_neg h]

theorem ble_monitor_out_calls_append {σ : Type} (mw : σ → List Byte → σ) (P : Priv)
    (cs ds : List (Clock × Int)) :
    ∀ (st : OutAcc × σ),
      ble_monitor_out_calls mw P st (cs ++ ds)
        = ((ble_monitor_out_calls mw P (ble_monitor_out_calls mw P st cs).1 ds).1,
            (ble_monitor_out_calls mw P st cs).2
              ++ (ble_monitor_out_calls mw P (ble_monitor_out_calls mw P st cs).1 ds).2) := by
  induction cs with
  | nil => intro st; simp [ble_monitor_out_calls]
  | cons x rest ih =>
    intro st
    obtain ⟨clk, c⟩ := x
    simp only [List.cons_append, ble_monitor_out_calls, List.append_eq]
    rw [ih]

/-- Characters other than the newline, while they fit, are stored in order
and nothing is sent. -/
theorem ble_monitor_out_calls_store {σ : Type} (mw : σ → List Byte → σ) (P : Priv)
    (cs : List (Clock × Int)) :
    ∀ (st : OutAcc × σ), st.1.buf.length = sizeof_buf → st.1.len + cs.length ≤ 127 →
      (∀ x ∈ cs, x.2 ≠ 10) →
      (ble_monitor_out_calls mw P st cs).1.2 = st.2 ∧
      (ble_monitor_out_calls mw P st cs).1.1.len = st.1.len + cs.length ∧
      (ble_monitor_out_calls mw P st cs).1.1.buf.length = sizeof_buf ∧
      (ble_monitor_out_calls mw P st cs).1.1.buf.take (st.1.len + cs.length)
        = st.1.buf.take st.1.len ++ cs.map (fun x => u8OfInt x.2) ∧
      (ble_monitor_out_calls mw P st cs).2 = cs.map (fun x => x.2) := by
  induction cs with
  | nil => intro st hb _ _; simp [ble_monitor_out_calls, hb]
  | cons x rest ih =>
    intro st hb hl hnl
    obtain ⟨clk, c⟩ := x
    simp only [List.length_cons] at hl
    have hc : c ≠ 10 := hnl (clk, c) (by simp)
    simp only [ble_monitor_out_calls]
    rw [ble_monitor_out_store mw P clk st c hc (by omega)]
    have hsb : sizeof_buf = 128 := rfl
    obtain ⟨h1, h2, h3, h4, h5⟩ := ih
      (({ buf := st.1.buf.set st.1.len (u8OfInt c), len := st.1.len + 1 }, st.2))
      (by simpa using hb) (by simp only; omega) (fun y hy => hnl y (by simp [hy]))
    simp only at h1 h2 h3 h4 h5
    refine ⟨h1, by rw [h2, List.length_cons]; omega, h3, ?_, by rw [h5]; rfl⟩
    have hidx : st.1.len + (rest.length + 1) = st.1.len + 1 + rest.length := by omega
    rw [List.length_cons, hidx, h4, take_succ_set _ _ _ (by rw [hb, hsb]; omega)]
    simp

/-- C10: starting from an empty accumulator, for every string s of at most
127 characters containing no newline, feeding the characters of s to
ble_monitor_out sends nothing, and the following call with the newline emits
exactly one packet, the header with the system-note opcode and payload length
|s| + 1 followed by the payload, the bytes of s and a single null byte; the
accumulator is left empty and every call returns its argument. -/
theorem ble_monitor_out_line (P : Priv) (log : List (List Byte)) (buf : List Byte)
    (cs : List (Clock × Int)) (clk : Clock)
    (hbuf : buf.length = sizeof_buf) (hlen : cs.length ≤ 127) (hnl : ∀ x ∈ cs, x.2 ≠ 10) :
    (ble_monitor_out_calls Sink.monitor_write P (⟨buf, 0⟩, log) cs).1.2 = log ∧
    (ble_monitor_out_calls Sink.monitor_write P (⟨buf, 0⟩, log) (cs ++ [(clk, 10)])).1.2
      = log ++
        [(encode_monitor_hdr P clk (-1) P.BLE_MONITOR_OPCODE_SYSTEM_NOTE (cs.length + 1)).bytes,
         cs.map (fun (x : Clock × Int) => u8OfInt x.2) ++ [0]] ∧
    (encode_monitor_hdr P clk (-1) P.BLE_MONITOR_OPCODE_SYSTEM_NOTE (cs.length + 1)).opcode
      = P.BLE_MONITOR_OPCODE_SYSTEM_NOTE % 2 ^ 16 ∧
    (cs.map (fun (x : Clock × Int) => u8OfInt x.2) ++ [0]).length = cs.length + 1 ∧
    (ble_monitor_out_calls Sink.monitor_write P (⟨buf, 0⟩, log) (cs ++ [(clk, 10)])).1.1.len = 0 ∧
    (ble_monitor_out_calls Sink.monitor_write P (⟨buf, 0⟩, log) (cs ++ [(clk, 10)])).2
      = (cs ++ [(clk, 10)]).map (fun (x : Clock × Int) => x.2) := by
  obtain ⟨h1, h2, h3, h4, h5⟩ := ble_monitor_out_calls_store Sink.monitor_write P cs
    (⟨buf, 0⟩, log) hbuf (by simp only; omega) hnl
  simp only [Nat.zero_add, List.take_zero, List.nil_append] at h2 h4
  have hsb : sizeof_buf = 128 := rfl
  rw [ble_monitor_out_calls_append]
  simp only [ble_monitor_out_calls, ble_monitor_out_newline]
  have hpay : ((ble_monitor_out_calls Sink.monitor_write P (⟨buf, 0⟩, log) cs).1.1.buf.set
      (ble_monitor_out_calls Sink.monitor_write P (⟨buf, 0⟩, log) cs).1.1.len 0).take
        ((ble_monitor_out_calls Sink.monitor_write P (⟨buf, 0⟩, log) cs).1.1.len + 1)
      = cs.map (fun (x : Clock × Int) => u8OfInt x.2) ++ [0] := by
    rw [take_succ_set _ _ _ (by rw [h3, h2, hsb]; omega), h2, h4]
  refine ⟨h1, ?_, rfl, by simp, trivial, ?_⟩
  · rw [hpay]
    simp only [ble_monitor_send, Sink.monitor_write, h1, List.length_append, List.length_map,
      List.length_singleton, List.append_assoc, List.cons_append, List.nil_append]
  · rw [h5]
    simp

/-- Witness of C10: the characters h, i and the newline give one system-note
packet with the payload h, i, null. -/
theorem ble_monitor_out_line_witness :
    (List.replicate 128 (0 : Byte)).length = sizeof_buf ∧
    (ble_monitor_out_calls Sink.monitor_write ⟨8, 0, 13, 12, 8⟩
      (⟨List.replicate 128 0, 0⟩, [])
      ([(⟨0, 0, 0, 0⟩, 104), (⟨0, 0, 0, 0⟩, 105)] ++ [(⟨0, 0, 0, 0⟩, 10)])).1.2
      = [[12, 0, 12, 0, 0, 5, 8, 0, 0, 0, 0], [104, 105, 0]] :=
  ⟨List.length_replicate _ _,
    (ble_monitor_out_line ⟨8, 0, 13, 12, 8⟩ [] (List.replicate 128 0)
      [(⟨0, 0, 0, 0⟩, 104), (⟨0, 0, 0, 0⟩, 105)] ⟨0, 0, 0, 0⟩
      (List.length_replicate _ _) (by decide) (by simp)).2.1.trans (by decide)⟩

/-! ## Formatted log lines -/

theorem Sink.fold_btmon (out : List (List Byte)) :
    ∀ log : List (List Byte),
      out.foldl (fun s bp => (btmon_write Sink.monitor_write s bp).1) log = log ++ out := by
  induction out with
  | nil => intro log; simp
  | cons bp rest ih =>
    intro log
    rw [List.foldl_cons, ih, btmon_write, Sink.monitor_write, List.append_assoc]
    rfl

/-- The calls that ble_monitor_log makes on the sink, in order. -/
theorem ble_monitor_log_calls (P : Priv) (L : LogLevels) (clk : Clock)
    (log : List (List Byte)) (level : Int) (out : List (List Byte)) :
    (ble_monitor_log Sink.monitor_write P L clk log level out).1
      = log ++
        ([(encode_monitor_hdr P clk (-1) P.BLE_MONITOR_OPCODE_USER_LOGGING
            (sizeof_ulog + sizeof_id + out.flatten.length + 1)).bytes,
          [u8 (ulog_priority L level), u8 sizeof_id], log_id] ++ out ++ [[0]]) := by
  simp only [ble_monitor_log]
  rw [Sink.fold_btmon]
  simp [Sink.monitor_write]

/-- C11: severity mapping of ble_monitor_log.  For every integer level, the
priority byte of the user-log record, the first byte of the second call on the
sink, is 3 if level is LOG_LEVEL_ERROR, 4 if LOG_LEVEL_WARN, 6 if
LOG_LEVEL_INFO, 7 if LOG_LEVEL_DEBUG, and 8 for every other value (the four
constants are distinct, as the case labels of a switch are). -/
theorem ble_monitor_log_priority (P : Priv) (L : LogLevels) (clk : Clock) (level : Int)
    (out : List (List Byte))
    (hdist : L.LOG_LEVEL_ERROR ≠ L.LOG_LEVEL_WARN ∧ L.LOG_LEVEL_ERROR ≠ L.LOG_LEVEL_INFO ∧
      L.LOG_LEVEL_ERROR ≠ L.LOG_LEVEL_DEBUG ∧ L.LOG_LEVEL_WARN ≠ L.LOG_LEVEL_INFO ∧
      L.LOG_LEVEL_WARN ≠ L.LOG_LEVEL_DEBUG ∧ L.LOG_LEVEL_INFO ≠ L.LOG_LEVEL_DEBUG) :
    (ble_monitor_log Sink.monitor_write P L clk [] level out).1[1]?
      = some [u8 (ulog_priority L level), u8 sizeof_id] ∧
    (level = L.LOG_LEVEL_ERROR → u8 (ulog_priority L level) = 3) ∧
    (level = L.LOG_LEVEL_WARN → u8 (ulog_priority L level) = 4) ∧
    (level = L.LOG_LEVEL_INFO → u8 (ulog_priority L level) = 6) ∧
    (level = L.LOG_LEVEL_DEBUG → u8 (ulog_priority L level) = 7) ∧
    (level ≠ L.LOG_LEVEL_ERROR → level ≠ L.LOG_LEVEL_WARN → level ≠ L.LOG_LEVEL_INFO →
      level ≠ L.LOG_LEVEL_DEBUG → u8 (ulog_priority L level) = 8) := by
  obtain ⟨h1, h2, h3, h4, h5, h6⟩ := hdist
  refine ⟨?_, ?_, ?_, ?_, ?_, ?_⟩
  · rw [ble_monitor_log_calls]
    simp
  · intro h
    simp only [ulog_priority, h, if_true]
    rfl
  · intro h
    subst h
    simp only [ulog_priority, Ne.symm h1, if_false, if_true]
    rfl
  · intro h
    subst h
    simp only [ulog_priority, Ne.symm h2, Ne.symm h4, if_false, if_true]
    rfl
  · intro h
    subst h
    simp only [ulog_priority, Ne.symm h3, Ne.symm h5, Ne.symm h6, if_false, if_true]
    rfl
  · intro a b c d
    simp only [ulog_priority, a, b, c, d, if_false]
    rfl

/-- Witness of C11: with the levels DEBUG = 0, INFO = 1, WARN = 2, ERROR = 3,
the level 2 gives the priority byte 4 and the level 9 the priority byte 8. -/
theorem ble_monitor_log_priority_witness :
    ((3 : Int) ≠ 2 ∧ (3 : Int) ≠ 1 ∧ (3 : Int) ≠ 0 ∧ (2 : Int) ≠ 1 ∧ (2 : Int) ≠ 0 ∧
      (1 : Int) ≠ 0) ∧
    u8 (ulog_priority ⟨3, 2, 1, 0⟩ 2) = 4 ∧
    u8 (ulog_priority ⟨3, 2, 1, 0⟩ 9) = 8 :=
  ⟨by decide,
    (ble_monitor_log_priority ⟨8, 0, 13, 12, 8⟩ ⟨3, 2, 1, 0⟩ ⟨0, 0, 0, 0⟩ 2 [] (by decide)).2.2.1 rfl,
    (ble_monitor_log_priority ⟨8, 0, 13, 12, 8⟩ ⟨3, 2, 1, 0⟩ ⟨0, 0, 0, 0⟩ 9 [] (by decide)).2.2.2.2.2
      (by decide) (by decide) (by decide) (by decide)⟩

theorem wrap64_of_range (x : Int) (hlo : -(2 ^ 63) ≤ x) (hhi : x < 2 ^ 63) : wrap64 x = x := by
  simp only [wrap64]
  omega

theorem wrap64_add_left (a b : Int) : wrap64 (wrap64 a + b) = wrap64 (a + b) := by
  simp only [wrap64]
  omega

theorem wrap64_range (x : Int) : -(2 ^ 63) ≤ wrap64 x ∧ wrap64 x < 2 ^ 63 := by
  simp only [wrap64]
  omega

/-- C13: timestamp auto-resolution.  When encode_monitor_hdr is called with an
unspecified timestamp (ts < 0) and a wall clock whose tv_sec is an int64_t and
whose tv_usec is an int32_t, if the wall-clock read fails or reports seconds
earlier than the reference epoch 1451606400 (16801 days after 1 Jan 1970,
that is 1 Jan 2016 UTC), the timestamp used is the uptime counter in
microseconds; otherwise it is tv_sec * 1000000 + tv_usec of the wall clock,
computed in int64_t, which is the mathematical value whenever that value is
in the range of int64_t (below 2^63); in both cases ts32 is that timestamp
divided by 100 (truncating), mod 2^32. -/
theorem encode_monitor_hdr_auto_ts (P : Priv) (clk : Clock) (ts : Int) (opcode len : Nat)
    (hts : ts < 0)
    (hsec : -(2 ^ 63) ≤ clk.tv_sec ∧ clk.tv_sec < 2 ^ 63)
    (husec : -(2 ^ 31) ≤ clk.tv_usec ∧ clk.tv_usec < 2 ^ 31) :
    UTC01_01_2016 = 1451606400 ∧ UTC01_01_2016 = (46 * 365 + 11) * 86400 ∧
    (clk.rc ≠ 0 ∨ clk.tv_sec < 1451606400 →
      ((encode_monitor_hdr P clk ts opcode len).ts32 : Int)
        = (Int.tdiv clk.uptime_usec 100) % 2 ^ 32) ∧
    (clk.rc = 0 → 1451606400 ≤ clk.tv_sec →
      ((encode_monitor_hdr P clk ts opcode len).ts32 : Int)
        = (Int.tdiv (wrap64 (clk.tv_sec * 1000000 + clk.tv_usec)) 100) % 2 ^ 32) ∧
    (clk.rc = 0 → 1451606400 ≤ clk.tv_sec → clk.tv_sec * 1000000 + clk.tv_usec < 2 ^ 63 →
      ((encode_monitor_hdr P clk ts opcode len).ts32 : Int)
        = (Int.tdiv (clk.tv_sec * 1000000 + clk.tv_usec) 100) % 2 ^ 32) ∧
    (clk.rc ≠ 0 ∨ clk.tv_sec < 1451606400 → 0 ≤ clk.uptime_usec →
      (encode_monitor_hdr P clk ts opcode len).ts32 = (clk.uptime_usec.toNat / 100) % 2 ^ 32) ∧
    (clk.rc = 0 → 1451606400 ≤ clk.tv_sec → clk.tv_sec * 1000000 + clk.tv_usec < 2 ^ 63 →
      (encode_monitor_hdr P clk ts opcode len).ts32
        = ((clk.tv_sec * 1000000 + clk.tv_usec).toNat / 100) % 2 ^ 32) := by
  have hnat : ∀ t : Int, 0 ≤ t → ((Int.tdiv t 100) % 2 ^ 32).toNat = (t.toNat / 100) % 2 ^ 32 := by
    intro t ht
    obtain ⟨n, rfl⟩ := Int.eq_ofNat_of_zero_le ht
    have h : Int.tdiv (n : Int) 100 = ((n / 100 : Nat) : Int) := by
      rw [Int.tdiv_eq_ediv (by omega) (by decide)]; rfl
    rw [h, Int.toNat_ofNat]
    omega
  have hcast : ∀ t : Int, (((t % 2 ^ 32).toNat : Nat) : Int) = t % 2 ^ 32 := by
    intro t
    omega
  have hwall : ∀ h2 : ¬ (clk.rc ≠ 0 ∨ clk.tv_sec < UTC01_01_2016),
      (encode_monitor_hdr P clk ts opcode len).ts32
        = ((Int.tdiv (wrap64 (clk.tv_sec * 1000000 + clk.tv_usec)) 100) % 2 ^ 32).toNat := by
    intro h2
    simp only [encode_monitor_hdr, hts, if_true, h2, if_false, wrap64_add_left]
  have hfit : 1451606400 ≤ clk.tv_sec → clk.tv_sec * 1000000 + clk.tv_usec < 2 ^ 63 →
      wrap64 (clk.tv_sec * 1000000 + clk.tv_usec) = clk.tv_sec * 1000000 + clk.tv_usec ∧
      0 ≤ clk.tv_sec * 1000000 + clk.tv_usec := by
    intro hs hlt
    have hnn : 0 ≤ clk.tv_sec * 1000000 + clk.tv_usec := by omega
    exact ⟨wrap64_of_range _ (by omega) hlt, hnn⟩
  have hnotset : ∀ hrc : clk.rc = 0, ∀ hs : 1451606400 ≤ clk.tv_sec,
      ¬ (clk.rc ≠ 0 ∨ clk.tv_sec < UTC01_01_2016) := by
    intro hrc hs
    simp only [UTC01_01_2016]
    omega
  refine ⟨rfl, by decide, ?_, ?_, ?_, ?_, ?_⟩
  · intro h
    have h2 : clk.rc ≠ 0 ∨ clk.tv_sec < UTC01_01_2016 := h
    simp only [encode_monitor_hdr, hts, if_true, h2]
    exact hcast _
  · intro hrc hs
    rw [hwall (hnotset hrc hs)]
    exact hcast _
  · intro hrc hs hlt
    rw [hwall (hnotset hrc hs), (hfit hs hlt).1]
    exact hcast _
  · intro h hup0
    have h2 : clk.rc ≠ 0 ∨ clk.tv_sec < UTC01_01_2016 := h
    simp only [encode_monitor_hdr, hts, if_true, h2]
    exact hnat _ hup0
  · intro hrc hs hlt
    rw [hwall (hnotset hrc hs), (hfit hs hlt).1]
    exact hnat _ (hfit hs hlt).2

/-- Witness of C13: a wall clock reading 5 seconds (not set) falls back to the
uptime of 123456 microseconds; a wall clock of 1500000000 s and 250 us gives
ts32 = (1500000000000250 / 100) mod 2^32; and a wall clock of 9223372036855 s,
whose microseconds do not fit int64_t, gives the wrapped value 2233385236. -/
theorem encode_monitor_hdr_auto_ts_witness :
    (-1 : Int) < 0 ∧
    (-(2 ^ 63) ≤ (1500000000 : Int) ∧ (1500000000 : Int) < 2 ^ 63) ∧
    (-(2 ^ 31) ≤ (250 : Int) ∧ (250 : Int) < 2 ^ 31) ∧
    (encode_monitor_hdr ⟨8, 0, 13, 12, 8⟩ ⟨0, 5, 0, 123456⟩ (-1) 10 3).ts32 = 1234 ∧
    (encode_monitor_hdr ⟨8, 0, 13, 12, 8⟩ ⟨0, 1500000000, 250, 99⟩ (-1) 10 3).ts32
      = 15000000000002 % 2 ^ 32 ∧
    ((encode_monitor_hdr ⟨8, 0, 13, 12, 8⟩ ⟨0, 9223372036855, 0, 99⟩ (-1) 10 3).ts32 : Int)
      = 2233385236 :=
  ⟨by decide, by decide, by decide,
    ((encode_monitor_hdr_auto_ts ⟨8, 0, 13, 12, 8⟩ ⟨0, 5, 0, 123456⟩ (-1) 10 3
      (by decide) (by decide) (by decide)).2.2.2.2.2.1
        (Or.inr (by decide)) (by decide)).trans (by decide),
    ((encode_monitor_hdr_auto_ts ⟨8, 0, 13, 12, 8⟩ ⟨0, 1500000000, 250, 99⟩ (-1) 10 3
      (by decide) (by decide) (by decide)).2.2.2.2.2.2
        rfl (by decide) (by decide)).trans (by decide),
    ((encode_monitor_hdr_auto_ts ⟨8, 0, 13, 12, 8⟩ ⟨0, 9223372036855, 0, 99⟩ (-1) 10 3
      (by decide) (by decide) (by decide)).2.2.2.1
        rfl (by decide)).trans (by decide)⟩

/-! ## The length field -/

theorem ble_monitor_send_calls (P : Priv) (clk : Clock) (log : List (List Byte))
    (opcode : Nat) (data : List Byte) :
    (ble_monitor_send Sink.monitor_write P clk log opcode data).1
      = log ++ [(encode_monitor_hdr P clk (-1) opcode data.length).bytes, data] := by
  simp [ble_monitor_send, Sink.monitor_write]

theorem hdr_bytes_opcode (h : ble_monitor_hdr) :
    (h.bytes.drop 2).take 2 = [u8 h.opcode, u8 (h.opcode / 256)] := by
  simp [ble_monitor_hdr.bytes, le16]

/-- C14 (as stated, refuted): for opcode 0x000A and the payload 1, 2, 3 the
header written by ble_monitor_send has hdr_len 5, not 6, and data_len 12, not
13. -/
theorem send_example_hdr_len_is_five :
    (ble_monitor_send Sink.monitor_write ⟨8, 0, 13, 12, 8⟩ ⟨0, 0, 0, 0⟩ [] 10 [1, 2, 3]).1
      = [(encode_monitor_hdr ⟨8, 0, 13, 12, 8⟩ ⟨0, 0, 0, 0⟩ (-1) 10 3).bytes, [1, 2, 3]] ∧
    (encode_monitor_hdr ⟨8, 0, 13, 12, 8⟩ ⟨0, 0, 0, 0⟩ (-1) 10 3).hdr_len ≠ 6 ∧
    (encode_monitor_hdr ⟨8, 0, 13, 12, 8⟩ ⟨0, 0, 0, 0⟩ (-1) 10 3).data_len ≠ 13 ∧
    (encode_monitor_hdr ⟨8, 0, 13, 12, 8⟩ ⟨0, 0, 0, 0⟩ (-1) 10 3).bytes
      = [12, 0, 10, 0, 0, 5, 8, 0, 0, 0, 0] := by
  decide

/-- C14 (amended): ble_monitor_send with opcode = 0x000A and payload = 1, 2, 3
writes, as its first call on the sink, a header whose hdr_len is 5 (1 byte of
type tag and 4 bytes of ts32), whose data_len is 4 + 5 + 3 = 12, stored in the
first two bytes as 12, 0, and whose opcode field is the little-endian bytes
0x0A, 0x00; the second call writes the payload. -/
theorem ble_monitor_send_example (P : Priv) (clk : Clock) (log : List (List Byte)) :
    (ble_monitor_send Sink.monitor_write P clk log 0x000A [0x01, 0x02, 0x03]).1
      = log ++ [(encode_monitor_hdr P clk (-1) 0x000A 3).bytes, [0x01, 0x02, 0x03]] ∧
    (encode_monitor_hdr P clk (-1) 0x000A 3).hdr_len = 5 ∧
    (encode_monitor_hdr P clk (-1) 0x000A 3).data_len = 4 + 5 + 3 ∧
    (encode_monitor_hdr P clk (-1) 0x000A 3).bytes.take 2 = [12, 0] ∧
    (encode_monitor_hdr P clk (-1) 0x000A 3).opcode = 0x000A ∧
    ((encode_monitor_hdr P clk (-1) 0x000A 3).bytes.drop 2).take 2 = [0x0A, 0x00] ∧
    (encode_monitor_hdr P clk (-1) 0x000A 3).bytes[5]? = some 5 := by
  refine ⟨ble_monitor_send_calls P clk log _ _, rfl, rfl, ?_, rfl, ?_, ?_⟩
  · simp only [ble_monitor_hdr.bytes, le16, List.append_assoc, List.cons_append,
      List.nil_append, List.take_succ_cons, List.take_zero]
    have hdl : (encode_monitor_hdr P clk (-1) 0x000A 3).data_len = 12 := rfl
    rw [hdl]
    decide
  · rw [hdr_bytes_opcode]
    have hop : (encode_monitor_hdr P clk (-1) 0x000A 3).opcode = 10 := rfl
    rw [hop]
    decide
  · simp only [ble_monitor_hdr.bytes, le16, List.append_assoc, List.cons_append,
      List.nil_append]
    rfl

/-- C15 (as stated, refuted): for opcode 10 and the payload 1, 2, 3 the sink
receives 14 bytes while 4 + data_len = 16; and a payload of 65527 bytes is
within the range of the 16-bit field but gives data_len = 0. -/
theorem ble_monitor_send_total_is_not_four_plus_data_len :
    (ble_monitor_send Sink.monitor_write ⟨8, 0, 13, 12, 8⟩ ⟨0, 0, 0, 0⟩ [] 10
      [1, 2, 3]).1.flatten.length = 14 ∧
    4 + (encode_monitor_hdr ⟨8, 0, 13, 12, 8⟩ ⟨0, 0, 0, 0⟩ (-1) 10 3).data_len = 16 ∧
    (65527 < 2 ^ 16 ∧
      (encode_monitor_hdr ⟨8, 0, 13, 12, 8⟩ ⟨0, 0, 0, 0⟩ (-1) 10 65527).data_len = 0) := by
  decide

/-- C15 (amended): for every packet emitted by ble_monitor_send with
4 + hdr_len + payload length < 2^16, the data_len of the header, computed from
the payload length alone before any byte is written, equals the number of
bytes of the packet that follow the 2-byte data_len field: the bytes written
to the sink are sizeof(data_len) + data_len = 2 + data_len, the header size
plus the payload length. -/
theorem ble_monitor_send_data_len_total (P : Priv) (clk : Clock) (log : List (List Byte))
    (opcode : Nat) (data : List Byte)
    (hfit : 4 + (sizeof_type + sizeof_ts32) + data.length < 2 ^ 16) :
    (ble_monitor_send Sink.monitor_write P clk log opcode data).1
      = log ++ [(encode_monitor_hdr P clk (-1) opcode data.length).bytes, data] ∧
    ((ble_monitor_send Sink.monitor_write P clk log opcode data).1.drop log.length).flatten.length
      = sizeof_data_len + (encode_monitor_hdr P clk (-1) opcode data.length).data_len ∧
    ((ble_monitor_send Sink.monitor_write P clk log opcode data).1.drop log.length).flatten.length
      = sizeof_hdr + data.length ∧
    ((ble_monitor_send Sink.monitor_write P clk log opcode data).1.drop
        log.length).flatten.length - 2
      = (encode_monitor_hdr P clk (-1) opcode data.length).data_len ∧
    rd16 (((ble_monitor_send Sink.monitor_write P clk log opcode data).1.drop
        log.length).flatten) 0
      = (encode_monitor_hdr P clk (-1) opcode data.length).data_len := by
  have hcalls := ble_monitor_send_calls P clk log opcode data
  have hdl := encode_monitor_hdr_data_len P clk (-1) opcode data.length hfit
  have hb := hdr_bytes_length (encode_monitor_hdr P clk (-1) opcode data.length)
  have hflat : ((ble_monitor_send Sink.monitor_write P clk log opcode data).1.drop
      log.length).flatten
      = (encode_monitor_hdr P clk (-1) opcode data.length).bytes ++ data := by
    rw [hcalls, List.drop_left]
    simp
  have hlen : ((ble_monitor_send Sink.monitor_write P clk log opcode data).1.drop
      log.length).flatten.length = sizeof_hdr + data.length := by
    rw [hflat, List.length_append, hb]
  refine ⟨hcalls, ?_, hlen, ?_, ?_⟩
  · rw [hlen, hdl]
    simp only [sizeof_hdr, sizeof_data_len]
    omega
  · rw [hlen, hdl]
    simp only [sizeof_hdr]
    omega
  · rw [hflat]
    simp only [ble_monitor_hdr.bytes, List.append_assoc]
    exact rd16_le16_append _ (by
      rw [hdl]
      simp only [sizeof_type, sizeof_ts32] at hfit
      omega) _

/-- Witness of C15 (amended): opcode 10 and the payload 1, 2, 3 give 14 bytes,
2 more than data_len = 12. -/
theorem ble_monitor_send_data_len_total_witness :
    4 + (sizeof_type + sizeof_ts32) + ([1, 2, 3] : List Byte).length < 2 ^ 16 ∧
    ((ble_monitor_send Sink.monitor_write ⟨8, 0, 13, 12, 8⟩ ⟨0, 0, 0, 0⟩ [] 10
      [1, 2, 3]).1.drop ([] : List (List Byte)).length).flatten.length = 2 + 12 :=
  ⟨by decide,
    (ble_monitor_send_data_len_total ⟨8, 0, 13, 12, 8⟩ ⟨0, 0, 0, 0⟩ [] 10 [1, 2, 3]
      (by decide)).2.1.trans (by decide)⟩

/-- C19: length-field wrap-around.  For every payload length len passed to
ble_monitor_send the data_len of the header equals
(4 + hdr_len + (len mod 2^16)) mod 2^16 while all len payload bytes are still
written to the sink; for ble_monitor_send_om the summed length is likewise
taken mod 2^16; and the declared data_len equals 4 + hdr_len + len, the count
of the bytes actually emitted after the length field, exactly when
4 + hdr_len + len < 2^16. -/
theorem ble_monitor_send_data_len_wraps (P : Priv) (clk : Clock) (log : List (List Byte))
    (opcode : Nat) (data : List Byte) (om : List (List Byte)) :
    (ble_monitor_send Sink.monitor_write P clk log opcode data).1
      = log ++ [(encode_monitor_hdr P clk (-1) opcode data.length).bytes, data] ∧
    (encode_monitor_hdr P clk (-1) opcode data.length).data_len
      = (4 + (sizeof_type + sizeof_ts32) + data.length % 2 ^ 16) % 2 ^ 16 ∧
    om_length om = (om.map List.length).sum % 2 ^ 16 ∧
    (ble_monitor_send_om Sink.monitor_write P clk log opcode om).1
      = log ++ (encode_monitor_hdr P clk (-1) opcode (om_length om)).bytes :: om ∧
    (encode_monitor_hdr P clk (-1) opcode (om_length om)).data_len
      = (4 + (sizeof_type + sizeof_ts32) + (om.map List.length).sum % 2 ^ 16) % 2 ^ 16 ∧
    ((encode_monitor_hdr P clk (-1) opcode data.length).data_len
        = 4 + (sizeof_type + sizeof_ts32) + data.length
      ↔ 4 + (sizeof_type + sizeof_ts32) + data.length < 2 ^ 16) ∧
    ((encode_monitor_hdr P clk (-1) opcode (om_length om)).data_len
        = 4 + (sizeof_type + sizeof_ts32) + (om.map List.length).sum
      ↔ 4 + (sizeof_type + sizeof_ts32) + (om.map List.length).sum < 2 ^ 16) := by
  have hfl : om.flatten.length = (om.map List.length).sum := List.length_flatten om
  have hom : om_length om = (om.map List.length).sum % 2 ^ 16 := by
    rw [om_length_eq, hfl]
  have hd : ∀ n : Nat, (encode_monitor_hdr P clk (-1) opcode n).data_len
      = (4 + (sizeof_type + sizeof_ts32) + n % 2 ^ 16) % 2 ^ 16 := by
    intro n
    simp [encode_monitor_hdr, sizeof_type, sizeof_ts32]
  have hiff : ∀ n : Nat, ((4 + (sizeof_type + sizeof_ts32) + n % 2 ^ 16) % 2 ^ 16
      = 4 + (sizeof_type + sizeof_ts32) + n
      ↔ 4 + (sizeof_type + sizeof_ts32) + n < 2 ^ 16) := by
    intro n
    simp only [sizeof_type, sizeof_ts32]
    omega
  refine ⟨ble_monitor_send_calls P clk log opcode data, hd _, hom, ?_, ?_, ?_, ?_⟩
  · simp only [ble_monitor_send_om]
    rw [Sink.fold, Sink.monitor_write, List.append_assoc]
    rfl
  · rw [hd, hom, Nat.mod_mod]
  · rw [hd]
    exact hiff _
  · rw [hd, hom, Nat.mod_mod]
    exact hiff _

/-! ## The cursor of the reassembly buffer -/

theorem rd16_le (buf : List Byte) (off : Nat) : rd16 buf off ≤ 65535 := by
  have h0 := (buf.getD off 0).isLt
  have h1 := (buf.getD (off + 1) 0).isLt
  simp only [rd16]
  omega

/-- What one call of monitor_write does to the buffer, the cursor and the
channel, whatever the state. -/
theorem Rtt.write_bounds (s : Rtt) (buf : List Byte)
    (hl : s.rtt_pktbuf.length = sizeof_rtt_pktbuf) :
    (s.monitor_write buf).rtt_pktbuf.length = sizeof_rtt_pktbuf ∧
    (s.monitor_write buf).rtt_pktbuf_pos ≤ 65536 ∧
    ((s.monitor_write buf).channel = s.channel ∨
      ∃ w : List Byte, (s.monitor_write buf).channel = s.channel ++ [w] ∧
        w.length ≤ sizeof_rtt_pktbuf) ∧
    (s.rtt_pktbuf_pos + buf.length ≤ sizeof_rtt_pktbuf →
      (s.monitor_write buf).rtt_pktbuf_pos ≤ sizeof_rtt_pktbuf) ∧
    (sizeof_rtt_pktbuf < s.rtt_pktbuf_pos + buf.length →
      (s.monitor_write buf).rtt_pktbuf = s.rtt_pktbuf ∧
      (s.monitor_write buf).channel = s.channel) := by
  have hsz : sizeof_rtt_pktbuf = 256 := rfl
  have hsd : sizeof_data_len = 2 := rfl
  by_cases hd : s.rtt_pktbuf_pos + buf.length > sizeof_rtt_pktbuf
  · by_cases hc : s.rtt_pktbuf_pos + buf.length < sizeof_data_len + rd16 s.rtt_pktbuf 0
    · rw [Rtt.write_skip s buf hd hc]
      have := rd16_le s.rtt_pktbuf 0
      exact ⟨hl, by simp only; omega, Or.inl rfl, fun h => by omega, fun _ => ⟨rfl, rfl⟩⟩
    · rw [Rtt.write_drop s buf hd hc]
      exact ⟨hl, by simp, Or.inl rfl, fun h => by omega, fun _ => ⟨rfl, rfl⟩⟩
  · have hle : s.rtt_pktbuf_pos + buf.length ≤ s.rtt_pktbuf.length := by omega
    have hml := memcpy_length s.rtt_pktbuf buf s.rtt_pktbuf_pos hle
    by_cases hc : s.rtt_pktbuf_pos + buf.length
        < sizeof_data_len + rd16 (memcpy s.rtt_pktbuf s.rtt_pktbuf_pos buf) 0
    · rw [Rtt.write_acc s buf (by omega) hc]
      exact ⟨by simp only; rw [hml, hl], by simp only; omega, Or.inl rfl,
        fun _ => by simp only; omega, fun h => by omega⟩
    · rw [Rtt.write_flush s buf (by omega) hc]
      refine ⟨by simp only; rw [hml, hl], by simp, Or.inr ⟨_, rfl, ?_⟩,
        fun _ => by simp, fun h => by omega⟩
      rw [List.length_take]
      omega

set_option maxRecDepth 100000 in
/-- C16 (as stated, refuted): the header of a frame with 300 payload bytes
followed by a first fragment of 250 bytes leaves the cursor at 261, above the
capacity of 256. -/
theorem rtt_cursor_exceeds_capacity :
    ([(encode_monitor_hdr ⟨8, 0, 13, 12, 8⟩ ⟨0, 0, 0, 0⟩ (-1) 10 300).bytes,
        List.replicate 250 1].foldl Rtt.monitor_write
      (Rtt.init (List.replicate 256 0))).rtt_pktbuf_pos = 261 ∧
    ¬ (261 ≤ sizeof_rtt_pktbuf) := by
  decide

/-- C16 (amended): in buffered mode, starting from cursor 0, after every
monitor_write call in every sequence of calls the buffer still has its 256
bytes, the cursor does not exceed 2^16, and no channel write is longer than
256 bytes.  A call whose bytes fit (cursor + len <= 256) leaves the cursor at
most 256; a call whose bytes do not fit copies nothing into the buffer and
writes nothing to the channel, so the cursor exceeds the capacity only while
it counts the bytes of a frame that is being discarded. -/
theorem rtt_cursor_bound (buf : List Byte) (calls : List (List Byte))
    (hbuf : buf.length = sizeof_rtt_pktbuf) :
    (calls.foldl Rtt.monitor_write (Rtt.init buf)).rtt_pktbuf.length = sizeof_rtt_pktbuf ∧
    (calls.foldl Rtt.monitor_write (Rtt.init buf)).rtt_pktbuf_pos ≤ 2 ^ 16 ∧
    (∀ w ∈ (calls.foldl Rtt.monitor_write (Rtt.init buf)).channel,
      w.length ≤ sizeof_rtt_pktbuf) ∧
    (∀ next : List Byte,
      (calls.foldl Rtt.monitor_write (Rtt.init buf)).rtt_pktbuf_pos + next.length
          ≤ sizeof_rtt_pktbuf →
      ((calls.foldl Rtt.monitor_write (Rtt.init buf)).monitor_write next).rtt_pktbuf_pos
        ≤ sizeof_rtt_pktbuf) ∧
    (∀ next : List Byte,
      sizeof_rtt_pktbuf
          < (calls.foldl Rtt.monitor_write (Rtt.init buf)).rtt_pktbuf_pos + next.length →
      ((calls.foldl Rtt.monitor_write (Rtt.init buf)).monitor_write next).rtt_pktbuf
        = (calls.foldl Rtt.monitor_write (Rtt.init buf)).rtt_pktbuf ∧
      ((calls.foldl Rtt.monitor_write (Rtt.init buf)).monitor_write next).channel
        = (calls.foldl Rtt.monitor_write (Rtt.init buf)).channel) := by
  have inv : ∀ (cs : List (List Byte)) (s : Rtt), s.rtt_pktbuf.length = sizeof_rtt_pktbuf →
      s.rtt_pktbuf_pos ≤ 2 ^ 16 → (∀ w ∈ s.channel, w.length ≤ sizeof_rtt_pktbuf) →
      (cs.foldl Rtt.monitor_write s).rtt_pktbuf.length = sizeof_rtt_pktbuf ∧
      (cs.foldl Rtt.monitor_write s).rtt_pktbuf_pos ≤ 2 ^ 16 ∧
      (∀ w ∈ (cs.foldl Rtt.monitor_write s).channel, w.length ≤ sizeof_rtt_pktbuf) := by
    intro cs
    induction cs with
    | nil => intro s h1 h2 h3; exact ⟨h1, h2, h3⟩
    | cons c rest ih =>
      intro s h1 h2 h3
      obtain ⟨b1, b2, b3, _, _⟩ := Rtt.write_bounds s c h1
      refine ih (s.monitor_write c) b1 b2 ?_
      intro w hw
      rcases b3 with hsame | ⟨w2, hw2, hlen2⟩
      · exact h3 w (hsame ▸ hw)
      · rw [hw2, List.mem_append, List.mem_singleton] at hw
        rcases hw with hw | hw
        · exact h3 w hw
        · exact hw ▸ hlen2
  obtain ⟨i1, i2, i3⟩ := inv calls (Rtt.init buf) hbuf (by simp [Rtt.init])
    (by simp [Rtt.init])
  refine ⟨i1, i2, i3, fun next h => ?_, fun next h => ?_⟩
  · exact (Rtt.write_bounds _ next i1).2.2.2.1 h
  · exact (Rtt.write_bounds _ next i1).2.2.2.2 h

/-- Witness of C16 (amended): after a header and a fragment that fits, the
buffer has 256 bytes and the cursor is below 2^16. -/
theorem rtt_cursor_bound_witness :
    (List.replicate 256 (0 : Byte)).length = sizeof_rtt_pktbuf ∧
    ([[12, 0, 10, 0, 0, 5, 8, 0, 0, 0, 0], [1, 2]].foldl Rtt.monitor_write
      (Rtt.init (List.replicate 256 0))).rtt_pktbuf_pos ≤ 2 ^ 16 :=
  ⟨List.length_replicate _ _,
    (rtt_cursor_bound (List.replicate 256 0) [[12, 0, 10, 0, 0, 5, 8, 0, 0, 0, 0], [1, 2]]
      (List.length_replicate _ _)).2.1⟩

/-! ## Bounds of the line accumulator -/

/-- A call of ble_monitor_out that emits the line: the character is the
newline or the buffer holds 127 characters. -/
theorem ble_monitor_out_emit (P : Priv) (clk : Clock) (st : OutAcc × List (List Byte))
    (c : Int) (h : c = 10 ∨ 127 ≤ st.1.len) (hl : st.1.len < st.1.buf.length) :
    ble_monitor_out Sink.monitor_write P clk st c
      = (({ buf := st.1.buf.set st.1.len 0, len := 0 },
          st.2 ++ [(encode_monitor_hdr P clk (-1) P.BLE_MONITOR_OPCODE_SYSTEM_NOTE
              (st.1.len + 1)).bytes, st.1.buf.take st.1.len ++ [0]]), c) := by
  have hn : ¬ (c ≠ 10 ∧ st.1.len < sizeof_buf - 1) := by
    simp only [sizeof_buf]
    omega
  rw [ble_monitor_out, if_neg hn]
  simp only [ble_monitor_send, Sink.monitor_write]
  rw [take_succ_set _ _ _ hl]
  simp [Nat.min_eq_left (Nat.le_of_lt hl)]

/-- C18: when 127 characters (none of them a newline) have been accumulated
from the empty accumulator and ble_monitor_out is called with any character c
(in particular one other than the newline), it emits one system-note packet whose payload is
exactly 128 bytes, the 127 accumulated characters followed by a null byte,
leaves the accumulator empty and returns c; the state after the call is the
same whatever the character was, so c is stored neither in the packet nor in
the accumulator and no later packet depends on it. -/
theorem ble_monitor_out_full (P : Priv) (log : List (List Byte)) (buf : List Byte)
    (cs : List (Clock × Int)) (clk : Clock) (c : Int)
    (hbuf : buf.length = sizeof_buf) (hlen : cs.length = 127) (hnl : ∀ x ∈ cs, x.2 ≠ 10) :
    (ble_monitor_out_calls Sink.monitor_write P (⟨buf, 0⟩, log) cs).1.1.len = 127 ∧
    (ble_monitor_out_calls Sink.monitor_write P (⟨buf, 0⟩, log) cs).1.2 = log ∧
    (ble_monitor_out Sink.monitor_write P clk
        (ble_monitor_out_calls Sink.monitor_write P (⟨buf, 0⟩, log) cs).1 c).1.2
      = log ++ [(encode_monitor_hdr P clk (-1) P.BLE_MONITOR_OPCODE_SYSTEM_NOTE 128).bytes,
          cs.map (fun (x : Clock × Int) => u8OfInt x.2) ++ [0]] ∧
    (cs.map (fun (x : Clock × Int) => u8OfInt x.2) ++ [0]).length = 128 ∧
    (ble_monitor_out Sink.monitor_write P clk
        (ble_monitor_out_calls Sink.monitor_write P (⟨buf, 0⟩, log) cs).1 c).1.1.len = 0 ∧
    (ble_monitor_out Sink.monitor_write P clk
        (ble_monitor_out_calls Sink.monitor_write P (⟨buf, 0⟩, log) cs).1 c).2 = c ∧
    (∀ c2 : Int,
      (ble_monitor_out Sink.monitor_write P clk
        (ble_monitor_out_calls Sink.monitor_write P (⟨buf, 0⟩, log) cs).1 c2).1
      = (ble_monitor_out Sink.monitor_write P clk
        (ble_monitor_out_calls Sink.monitor_write P (⟨buf, 0⟩, log) cs).1 c).1) := by
  obtain ⟨h1, h2, h3, h4, _⟩ := ble_monitor_out_calls_store Sink.monitor_write P cs
    (⟨buf, 0⟩, log) hbuf (by simp only; omega) hnl
  simp only [Nat.zero_add, List.take_zero, List.nil_append] at h1 h2 h4
  rw [hlen] at h4
  have hsb : sizeof_buf = 128 := rfl
  have h127 : (ble_monitor_out_calls Sink.monitor_write P (⟨buf, 0⟩, log) cs).1.1.len = 127 := by
    rw [h2, hlen]
  have hlt : (ble_monitor_out_calls Sink.monitor_write P (⟨buf, 0⟩, log) cs).1.1.len
      < (ble_monitor_out_calls Sink.monitor_write P (⟨buf, 0⟩, log) cs).1.1.buf.length := by
    rw [h127, h3, hsb]
    decide
  have hemit : ∀ c2 : Int, ble_monitor_out Sink.monitor_write P clk
      (ble_monitor_out_calls Sink.monitor_write P (⟨buf, 0⟩, log) cs).1 c2
      = (({ buf := (ble_monitor_out_calls Sink.monitor_write P (⟨buf, 0⟩, log) cs).1.1.buf.set
              127 0, len := 0 },
          log ++ [(encode_monitor_hdr P clk (-1) P.BLE_MONITOR_OPCODE_SYSTEM_NOTE 128).bytes,
            cs.map (fun (x : Clock × Int) => u8OfInt x.2) ++ [0]]), c2) := by
    intro c2
    rw [ble_monitor_out_emit P clk _ c2 (Or.inr (by rw [h127])) hlt, h127, h1, h4]
  refine ⟨h127, h1, ?_, ?_, ?_, ?_, ?_⟩
  · rw [hemit c]
  · simp [hlen]
  · rw [hemit c]
  · rw [hemit c]
  · intro c2
    rw [hemit c2, hemit c]

/-- Witness of C18: 127 times the character a, then the character b. -/
theorem ble_monitor_out_full_witness :
    (List.replicate 128 (0 : Byte)).length = sizeof_buf ∧
    (List.replicate 127 ((⟨0, 0, 0, 0⟩ : Clock), (97 : Int))).length = 127 ∧
    (97 : Int) ≠ 10 ∧
    (ble_monitor_out Sink.monitor_write ⟨8, 0, 13, 12, 8⟩ ⟨0, 0, 0, 0⟩
        (ble_monitor_out_calls Sink.monitor_write ⟨8, 0, 13, 12, 8⟩
          (⟨List.replicate 128 0, 0⟩, [])
          (List.replicate 127 (⟨0, 0, 0, 0⟩, 97))).1 98).1.1.len = 0 ∧
    (ble_monitor_out Sink.monitor_write ⟨8, 0, 13, 12, 8⟩ ⟨0, 0, 0, 0⟩
        (ble_monitor_out_calls Sink.monitor_write ⟨8, 0, 13, 12, 8⟩
          (⟨List.replicate 128 0, 0⟩, [])
          (List.replicate 127 (⟨0, 0, 0, 0⟩, 97))).1 98).2 = 98 :=
  ⟨List.length_replicate _ _, List.length_replicate _ _, by decide,
    (ble_monitor_out_full ⟨8, 0, 13, 12, 8⟩ [] (List.replicate 128 0)
      (List.replicate 127 (⟨0, 0, 0, 0⟩, 97)) ⟨0, 0, 0, 0⟩ 98
      (List.length_replicate _ _) (List.length_replicate _ _)
      (fun x hx => by rw [List.eq_of_mem_replicate hx]; decide)).2.2.2.2.1,
    (ble_monitor_out_full ⟨8, 0, 13, 12, 8⟩ [] (List.replicate 128 0)
      (List.replicate 127 (⟨0, 0, 0, 0⟩, 97)) ⟨0, 0, 0, 0⟩ 98
      (List.length_replicate _ _) (List.length_replicate _ _)
      (fun x hx => by rw [List.eq_of_mem_replicate hx]; decide)).2.2.2.2.2.1⟩

theorem sink_payloads_pairs (pkts : List (List Byte × List Byte)) :
    sink_payloads (pkts.flatMap (fun x => [x.1, x.2])) = pkts.map (fun x => x.2) := by
  induction pkts with
  | nil => rfl
  | cons x rest ih =>
    show sink_payloads (x.1 :: x.2 :: rest.flatMap (fun x => [x.1, x.2]))
      = x.2 :: rest.map (fun x => x.2)
    rw [sink_payloads, ih]

/-- The invariant of the line accumulator in front of a recording sink: the
stored length is at most 127, the buffer has its 128 bytes, and the record is
a sequence of packets, header then payload, each payload of 1 to 128 bytes
ending in the null byte. -/
theorem ble_monitor_out_inv (P : Priv) (calls : List (Clock × Int)) :
    ∀ (st : OutAcc × List (List Byte)) (pkts : List (List Byte × List Byte)),
      st.1.len ≤ 127 → st.1.buf.length = sizeof_buf →
      st.2 = pkts.flatMap (fun x => [x.1, x.2]) →
      (∀ x ∈ pkts, 1 ≤ x.2.length ∧ x.2.length ≤ 128 ∧ x.2.getLast? = some 0) →
      (ble_monitor_out_calls Sink.monitor_write P st calls).1.1.len ≤ 127 ∧
      (ble_monitor_out_calls Sink.monitor_write P st calls).1.1.buf.length = sizeof_buf ∧
      ∃ pkts2 : List (List Byte × List Byte),
        (ble_monitor_out_calls Sink.monitor_write P st calls).1.2
          = pkts2.flatMap (fun x => [x.1, x.2]) ∧
        (∀ x ∈ pkts2, 1 ≤ x.2.length ∧ x.2.length ≤ 128 ∧ x.2.getLast? = some 0) := by
  have hsb : sizeof_buf = 128 := rfl
  induction calls with
  | nil => intro st pkts h1 h2 h3 h4; exact ⟨h1, h2, pkts, h3, h4⟩
  | cons x rest ih =>
    intro st pkts h1 h2 h3 h4
    obtain ⟨clk, c⟩ := x
    simp only [ble_monitor_out_calls]
    by_cases hst : c ≠ 10 ∧ st.1.len < 127
    · rw [ble_monitor_out_store Sink.monitor_write P clk st c hst.1 hst.2]
      exact ih _ pkts (by simp only; omega) (by simpa using h2) h3 h4
    · rw [ble_monitor_out_emit P clk st c (by omega) (by rw [h2, hsb]; omega)]
      refine ih _ (pkts ++ [((encode_monitor_hdr P clk (-1) P.BLE_MONITOR_OPCODE_SYSTEM_NOTE
        (st.1.len + 1)).bytes, st.1.buf.take st.1.len ++ [0])]) (by simp) (by simpa using h2)
        (by simp [h3]) ?_
      intro y hy
      rw [List.mem_append, List.mem_singleton] at hy
      rcases hy with hy | hy
      · exact h4 y hy
      · subst hy
        have hlast : (st.1.buf.take st.1.len ++ [0]).getLast? = some 0 := by simp
        simp only [List.length_append, List.length_take, List.length_singleton]
        exact ⟨by omega, by omega, hlast⟩

/-- C20: bounds of the line accumulator.  Starting from an empty accumulator,
for every sequence of ble_monitor_out calls, the stored length is at most 127
on entry to each call (after every prefix of the sequence), so the index len
of every write buf[len], of a character or of the terminator, is inside the
128-byte buffer; and every system-note payload emitted has a length between 1
and 128 and ends in the null terminator. -/
theorem ble_monitor_out_bounds (P : Priv) (buf : List Byte) (calls : List (Clock × Int))
    (hbuf : buf.length = sizeof_buf) :
    (∀ k : Nat,
      (ble_monitor_out_calls Sink.monitor_write P (⟨buf, 0⟩, []) (calls.take k)).1.1.len ≤ 127 ∧
      (ble_monitor_out_calls Sink.monitor_write P (⟨buf, 0⟩, []) (calls.take k)).1.1.len
        < (ble_monitor_out_calls Sink.monitor_write P (⟨buf, 0⟩, [])
            (calls.take k)).1.1.buf.length ∧
      (ble_monitor_out_calls Sink.monitor_write P (⟨buf, 0⟩, []) (calls.take k)).1.1.buf.length
        = 128) ∧
    (∀ p ∈ sink_payloads (ble_monitor_out_calls Sink.monitor_write P (⟨buf, 0⟩, []) calls).1.2,
      1 ≤ p.length ∧ p.length ≤ 128 ∧ p.getLast? = some 0) := by
  have hsb : sizeof_buf = 128 := rfl
  refine ⟨fun k => ?_, ?_⟩
  · obtain ⟨h1, h2, _⟩ := ble_monitor_out_inv P (calls.take k) (⟨buf, 0⟩, []) []
      (by simp) hbuf (by simp) (by simp)
    rw [hsb] at h2
    exact ⟨h1, by rw [h2]; omega, h2⟩
  · obtain ⟨_, _, pkts2, h3, h4⟩ := ble_monitor_out_inv P calls (⟨buf, 0⟩, []) []
      (by simp) hbuf (by simp) (by simp)
    rw [h3, sink_payloads_pairs]
    intro p hp
    rw [List.mem_map] at hp
    obtain ⟨x, hx, rfl⟩ := hp
    exact h4 x hx

/-- Witness of C20: the calls with h, i, newline, newline from the empty
accumulator emit the payloads h, i, null and null. -/
theorem ble_monitor_out_bounds_witness :
    (List.replicate 128 (0 : Byte)).length = sizeof_buf ∧
    sink_payloads (ble_monitor_out_calls Sink.monitor_write ⟨8, 0, 13, 12, 8⟩
      (⟨List.replicate 128 0, 0⟩, [])
      [(⟨0, 0, 0, 0⟩, 104), (⟨0, 0, 0, 0⟩, 105), (⟨0, 0, 0, 0⟩, 10), (⟨0, 0, 0, 0⟩, 10)]).1.2
      = [[104, 105, 0], [0]] ∧
    (∀ p ∈ sink_payloads (ble_monitor_out_calls Sink.monitor_write ⟨8, 0, 13, 12, 8⟩
      (⟨List.replicate 128 0, 0⟩, [])
      [(⟨0, 0, 0, 0⟩, 104), (⟨0, 0, 0, 0⟩, 105), (⟨0, 0, 0, 0⟩, 10), (⟨0, 0, 0, 0⟩, 10)]).1.2,
      1 ≤ p.length ∧ p.length ≤ 128 ∧ p.getLast? = some 0) :=
  ⟨List.length_replicate _ _, by decide,
    (ble_monitor_out_bounds ⟨8, 0, 13, 12, 8⟩ (List.replicate 128 0)
      [(⟨0, 0, 0, 0⟩, 104), (⟨0, 0, 0, 0⟩, 105), (⟨0, 0, 0, 0⟩, 10), (⟨0, 0, 0, 0⟩, 10)]
      (List.length_replicate _ _)).2⟩

/-! ## Packet atomicity -/

theorem send_om_calls_fold {σ : Type} (mw : σ → List Byte → σ) (P : Priv) (clk : Clock)
    (s : σ) (opcode : Nat) (om : List (List Byte)) :
    ble_monitor_send_om mw P clk s opcode om
      = ((send_om_calls P clk opcode om).foldl mw s, 0) := rfl

theorem EmitterInv.at_start (calls : Nat → List (List Byte)) (n : Nat) :
    EmitterInv calls n Emitter.init :=
  ⟨List.nodup_nil, by simp [Emitter.init], fun _ _ => rfl,
    fun _ => ⟨by simp [Emitter.init], by simp [Emitter.init]⟩,
    fun h hh => by simp [Emitter.init] at hh⟩

/-- A context that is between pend and release is the holder of the lock. -/
theorem EmitterInv.holder_of {calls : Nat → List (List Byte)} {n : Nat} {s : Emitter}
    (h : EmitterInv calls n s) (i : Nat) (rest : List (List Byte))
    (hpc : s.pc i = .holding rest) :
    ∃ (o : List Nat) (written : List (List Byte)),
      s.lock = some i ∧ s.order = o ++ [i] ∧ (∀ j ∈ o, s.pc j = .returned) ∧
      calls i = written ++ rest ∧ s.sink = (o.map calls).flatten ++ written := by
  have hin : i ∈ s.order := by
    by_contra hni
    have := h.fresh i hni
    rw [hpc] at this
    exact Pc.noConfusion this
  cases hl : s.lock with
  | none =>
    have := (h.free hl).1 i hin
    rw [hpc] at this
    exact Pc.noConfusion this
  | some k =>
    obtain ⟨o, written, rest2, ho, hret, hk, hc, hs⟩ := h.held k hl
    rw [ho, List.mem_append, List.mem_singleton] at hin
    rcases hin with hio | hik
    · have := hret i hio
      rw [hpc] at this
      exact Pc.noConfusion this
    · subst hik
      rw [hpc] at hk
      have hr : rest = rest2 := Pc.holding.inj hk
      subst hr
      exact ⟨o, written, rfl, ho, hret, hc, hs⟩

theorem EmitterInv.step_preserves {calls : Nat → List (List Byte)} {n : Nat} {s : Emitter}
    (h : EmitterInv calls n s) (i : Nat) : EmitterInv calls n (s.step calls n i) := by
  unfold Emitter.step
  by_cases hi : i < n
  swap
  · rw [if_neg hi]
    exact h
  rw [if_pos hi]
  cases hpc : s.pc i with
  | pending =>
    cases hl : s.lock with
    | some k =>
      simp only [os_mutex_pend, Bool.false_eq_true, if_false]
      exact h
    | none =>
      simp only [os_mutex_pend, if_true]
      obtain ⟨hret, hsink⟩ := h.free hl
      have hni : i ∉ s.order := by
        intro hin
        have := hret i hin
        rw [hpc] at this
        exact Pc.noConfusion this
      refine ⟨?_, ?_, ?_, ?_, ?_⟩
      · simp only
        exact List.Nodup.append h.nodup (List.nodup_singleton i) (by simpa using hni)
      · intro j hj
        simp only [List.mem_append, List.mem_singleton] at hj
        rcases hj with hj | hj
        · exact h.bound j hj
        · exact hj ▸ hi
      · intro j hj
        simp only [List.mem_append, List.mem_singleton, not_or] at hj
        simp only [Function.update_noteq hj.2]
        exact h.fresh j hj.1
      · intro hnone
        simp at hnone
      · intro k hk
        simp only [Option.some.injEq] at hk
        subst hk
        refine ⟨s.order, [], calls i, rfl, ?_, by simp, by simp, by simpa using hsink⟩
        intro j hj
        have hne : j ≠ i := fun e => hni (e ▸ hj)
        simp only [Function.update_noteq hne]
        exact hret j hj
  | holding rest =>
    obtain ⟨o, written, hl, ho, hret, hc, hs⟩ := h.holder_of i rest hpc
    have hnd := h.nodup
    rw [ho] at hnd
    have hio : i ∉ o := fun hin =>
      (List.nodup_append.mp hnd).2.2 hin (List.mem_singleton_self i)
    cases rest with
    | nil =>
      simp only [os_mutex_release]
      refine ⟨h.nodup, h.bound, ?_, ?_, ?_⟩
      · intro j hj
        have hne : j ≠ i := by
          intro e
          apply hj
          rw [ho, e]
          simp
        simp only [Function.update_noteq hne]
        exact h.fresh j hj
      · intro _
        refine ⟨?_, ?_⟩
        · intro j hj
          simp only at hj ⊢
          rw [ho, List.mem_append, List.mem_singleton] at hj
          rcases hj with hj | hj
          · have hne : j ≠ i := fun e => hio (e ▸ hj)
            rw [Function.update_noteq hne]
            exact hret j hj
          · rw [hj, Function.update_same]
        · simp only
          rw [hs, ho, List.map_append, List.flatten_append]
          simp [hc]
      · intro k hk
        simp at hk
    | cons c rest2 =>
      refine ⟨h.nodup, h.bound, ?_, ?_, ?_⟩
      · intro j hj
        have hne : j ≠ i := by
          intro e
          apply hj
          rw [ho, e]
          simp
        simp only [Function.update_noteq hne]
        exact h.fresh j hj
      · intro hnone
        simp only at hnone
        rw [hl] at hnone
        exact Option.noConfusion hnone
      · intro k hk
        simp only at hk
        rw [hl] at hk
        have hki : i = k := Option.some.inj hk
        subst hki
        refine ⟨o, written ++ [c], rest2, ho, ?_, by simp, by rw [hc]; simp, ?_⟩
        · intro j hj
          have hne : j ≠ i := fun e => hio (e ▸ hj)
          simp only [Function.update_noteq hne]
          exact hret j hj
        · simp only [Sink.monitor_write]
          rw [hs, List.append_assoc]
  | returned => simpa only using h

theorem EmitterInv.run_preserves (calls : Nat → List (List Byte)) (n : Nat) (sched : List Nat) :
    EmitterInv calls n (Emitter.run calls n sched) := by
  have gen : ∀ (l : List Nat) (s : Emitter), EmitterInv calls n s →
      EmitterInv calls n (l.foldl (Emitter.step calls n) s) := by
    intro l
    induction l with
    | nil => intro s hs; exact hs
    | cons i rest ih => intro s hs; exact ih _ (hs.step_preserves i)
  exact gen sched _ (EmitterInv.at_start calls n)

/-- C17: packet atomicity.  When n concurrent call contexts each emit one
packet through ble_monitor_send_om (ble_monitor_send is the case of a chain of
one segment), each taking the lock, making the monitor_write calls of its
header and of all its segments, and releasing the lock, then for every
schedule after which all contexts have returned the calls received by the
sink are the complete packets of the n contexts one after the other, in the
order in which they took the lock, which is a permutation of the contexts; so
the byte stream is the concatenation of the n packets (header + payload) in
that order, with no interleaving of the bytes of two packets. -/
theorem packet_atomicity (P : Priv) (n : Nat) (clk : Nat → Clock) (opcode : Nat → Nat)
    (om : Nat → List (List Byte)) (sched : List Nat)
    (hdone : ∀ i, i < n →
      (Emitter.run (fun i => send_om_calls P (clk i) (opcode i) (om i)) n sched).pc i
        = .returned) :
    (Emitter.run (fun i => send_om_calls P (clk i) (opcode i) (om i)) n sched).order.Perm
      (List.range n) ∧
    (Emitter.run (fun i => send_om_calls P (clk i) (opcode i) (om i)) n sched).sink
      = ((Emitter.run (fun i => send_om_calls P (clk i) (opcode i) (om i)) n sched).order.map
          (fun i => send_om_calls P (clk i) (opcode i) (om i))).flatten ∧
    (Emitter.run (fun i => send_om_calls P (clk i) (opcode i) (om i)) n sched).sink.flatten
      = ((Emitter.run (fun i => send_om_calls P (clk i) (opcode i) (om i)) n sched).order.map
          (fun i => (encode_monitor_hdr P (clk i) (-1) (opcode i) (om_length (om i))).bytes
            ++ (om i).flatten)).flatten ∧
    (∀ (c : Clock) (log : List (List Byte)) (op : Nat) (chain : List (List Byte)),
      (ble_monitor_send_om Sink.monitor_write P c log op chain).1
        = log ++ send_om_calls P c op chain) := by
  have inv := EmitterInv.run_preserves
    (fun i => send_om_calls P (clk i) (opcode i) (om i)) n sched
  have hfree : (Emitter.run (fun i => send_om_calls P (clk i) (opcode i) (om i))
      n sched).lock = none := by
    cases hl : (Emitter.run (fun i => send_om_calls P (clk i) (opcode i) (om i))
        n sched).lock with
    | none => rfl
    | some k =>
      obtain ⟨o, written, rest, ho, _, hk, _, _⟩ := inv.held k hl
      have hkn : k < n := inv.bound k (by rw [ho]; simp)
      have := hdone k hkn
      rw [hk] at this
      exact Pc.noConfusion this
  obtain ⟨_, hsink⟩ := inv.free hfree
  have hperm : (Emitter.run (fun i => send_om_calls P (clk i) (opcode i) (om i))
      n sched).order.Perm (List.range n) := by
    rw [List.perm_ext_iff_of_nodup inv.nodup (List.nodup_range n)]
    intro i
    rw [List.mem_range]
    constructor
    · exact inv.bound i
    · intro hi
      by_contra hni
      have := hdone i hi
      rw [inv.fresh i hni] at this
      exact Pc.noConfusion this
  refine ⟨hperm, hsink, ?_, ?_⟩
  · rw [hsink]
    generalize (Emitter.run (fun i => send_om_calls P (clk i) (opcode i) (om i))
      n sched).order = l
    induction l with
    | nil => rfl
    | cons i rest ih =>
      simp only [List.map_cons, List.flatten_cons, List.flatten_append] at ih ⊢
      rw [ih]
      simp [send_om_calls]
  · intro c log op chain
    rw [send_om_calls_fold, Sink.fold]

/-- Witness of C17: two contexts; context 0 takes the lock first and context 1
waits until it is released. -/
theorem packet_atomicity_witness :
    (∀ i, i < 2 →
      (Emitter.run (fun i => send_om_calls ⟨8, 0, 13, 12, 8⟩ ((fun _ => ⟨0, 0, 0, 0⟩) i)
          ((fun j => 10 + j) i) ((fun j => if j = 0 then [[1], [2]] else [[3]]) i)) 2
        [0, 1, 0, 1, 0, 0, 1, 0, 1, 1, 1, 1]).pc i = .returned) ∧
    (Emitter.run (fun i => send_om_calls ⟨8, 0, 13, 12, 8⟩ ((fun _ => ⟨0, 0, 0, 0⟩) i)
          ((fun j => 10 + j) i) ((fun j => if j = 0 then [[1], [2]] else [[3]]) i)) 2
        [0, 1, 0, 1, 0, 0, 1, 0, 1, 1, 1, 1]).order.Perm (List.range 2) ∧
    (Emitter.run (fun i => send_om_calls ⟨8, 0, 13, 12, 8⟩ ((fun _ => ⟨0, 0, 0, 0⟩) i)
          ((fun j => 10 + j) i) ((fun j => if j = 0 then [[1], [2]] else [[3]]) i)) 2
        [0, 1, 0, 1, 0, 0, 1, 0, 1, 1, 1, 1]).sink.flatten
      = [11, 0, 10, 0, 0, 5, 8, 0, 0, 0, 0, 1, 2, 10, 0, 11, 0, 0, 5, 8, 0, 0, 0, 0, 3] :=
  ⟨by decide,
    (packet_atomicity ⟨8, 0, 13, 12, 8⟩ 2 (fun _ => ⟨0, 0, 0, 0⟩) (fun j => 10 + j)
      (fun j => if j = 0 then [[1], [2]] else [[3]])
      [0, 1, 0, 1, 0, 0, 1, 0, 1, 1, 1, 1] (by decide)).1,
    by decide⟩

end BleMonitor
